import Mathlib

/-!
Verification of the website view-specialization layer (`ir.ui.view` website
override): copy-on-write (COW) forking, copy-on-unlink (COU) protection,
suitability ranking and duplicate collapsing, inheritance-arch resolution and
key-to-record resolution, shallowly embedded from
`src/addons/website/models/ir_ui_view.py`.
-/

namespace Odoo

/-- A physical `ir.ui.view` record. `website_id` is the optional website scope
(`none` = generic), `theme_id` the optional theme-module scope, `inherit_id`
the optional parent template this record patches. -/
structure View where
  id : Nat
  key : String
  name : String
  arch : String
  website_id : Option Nat
  theme_id : Option Nat
  inherit_id : Option Nat
  active : Bool
  priority : Nat
  deriving DecidableEq, Repr

/-- `_sort_suitability_key`: suitability of a view is `(different_website,
website_id)` where the context website defaults to `1` when absent and a
record without website counts as website `0`.  The Python boolean is embedded
as `0`/`1` so that the pair is compared lexicographically exactly as the
Python tuple `(bool, int)` is. -/
def View.sortSuitabilityKey (ctxWebsite : Option Nat) (v : View) : Nat × Nat :=
  let context_website_id := ctxWebsite.getD 1
  let website_id := v.website_id.getD 0
  let different_website := context_website_id ≠ website_id
  ((if different_website then 1 else 0), website_id)

/-- Lexicographic `≤` on pairs of naturals, matching Python tuple comparison. -/
def pairLe (p q : Nat × Nat) : Prop :=
  p.1 < q.1 ∨ (p.1 = q.1 ∧ p.2 ≤ q.2)

instance : DecidableRel pairLe := fun p q => by
  unfold pairLe; infer_instance

theorem pairLe_refl (p : Nat × Nat) : pairLe p p := Or.inr ⟨rfl, le_refl _⟩

theorem pairLe_trans {p q r : Nat × Nat} (h₁ : pairLe p q) (h₂ : pairLe q r) :
    pairLe p r := by
  rcases h₁ with h₁ | ⟨h₁, h₁'⟩ <;> rcases h₂ with h₂ | ⟨h₂, h₂'⟩
  · exact Or.inl (h₁.trans h₂)
  · exact Or.inl (h₂ ▸ h₁)
  · exact Or.inl (h₁ ▸ h₂)
  · exact Or.inr ⟨h₁.trans h₂, h₁'.trans h₂'⟩

theorem pairLe_total (p q : Nat × Nat) : pairLe p q ∨ pairLe q p := by
  rcases Nat.lt_trichotomy p.1 q.1 with h | h | h
  · exact Or.inl (Or.inl h)
  · rcases Nat.le_total p.2 q.2 with h' | h'
    · exact Or.inl (Or.inr ⟨h, h'⟩)
    · exact Or.inr (Or.inr ⟨h.symm, h'⟩)
  · exact Or.inr (Or.inl h)

instance : IsTotal (Nat × Nat) pairLe := ⟨pairLe_total⟩
instance : IsTrans (Nat × Nat) pairLe := ⟨fun _ _ _ => pairLe_trans⟩
instance : IsRefl (Nat × Nat) pairLe := ⟨pairLe_refl⟩

/-- Lexicographic comparison of character lists (a kernel-computable string
order standing for the storage engine's string ordering). -/
def charListLe : List Char → List Char → Bool
  | [], _ => true
  | _ :: _, [] => false
  | a :: as, b :: bs => if a = b then charListLe as bs else decide (a < b)

theorem charListLe_refl : ∀ x : List Char, charListLe x x = true := by
  intro x
  induction x with
  | nil => rfl
  | cons a as ih => simp [charListLe, ih]

theorem charListLe_total :
    ∀ x y : List Char, charListLe x y = true ∨ charListLe y x = true := by
  intro x
  induction x with
  | nil => intro y; left; rfl
  | cons a as ih =>
    intro y
    cases y with
    | nil => right; rfl
    | cons b bs =>
      by_cases hab : a = b
      · subst hab
        rcases ih bs with h | h
        · left; simpa [charListLe] using h
        · right; simpa [charListLe] using h
      · rcases lt_or_gt_of_ne hab with h | h
        · left; simp [charListLe, hab, h]
        · right; simp [charListLe, Ne.symm hab, h]

theorem charListLe_trans :
    ∀ x y z : List Char, charListLe x y = true → charListLe y z = true →
      charListLe x z = true := by
  intro x
  induction x with
  | nil => intro y z _ _; rfl
  | cons a as ih =>
    intro y z h1 h2
    cases y with
    | nil => simp [charListLe] at h1
    | cons b bs =>
      cases z with
      | nil => simp [charListLe] at h2
      | cons c cs =>
        by_cases hab : a = b <;> by_cases hbc : b = c
        · subst hab; subst hbc
          simp only [charListLe, if_pos rfl] at h1 h2 ⊢
          exact ih bs cs h1 h2
        · subst hab
          simp only [charListLe, if_pos rfl, if_neg hbc] at h2
          simp [charListLe, hbc, h2]
        · subst hbc
          simp only [charListLe, if_neg hab] at h1
          simp [charListLe, hab, h1]
        · simp only [charListLe, if_neg hab] at h1
          simp only [charListLe, if_neg hbc] at h2
          have hac : a < c := lt_trans (of_decide_eq_true h1) (of_decide_eq_true h2)
          have : a ≠ c := ne_of_lt hac
          simp [charListLe, this, hac]

theorem charListLe_antisymm :
    ∀ x y : List Char, charListLe x y = true → charListLe y x = true →
      x = y := by
  intro x
  induction x with
  | nil =>
    intro y _ h2
    cases y with
    | nil => rfl
    | cons b bs => simp [charListLe] at h2
  | cons a as ih =>
    intro y h1 h2
    cases y with
    | nil => simp [charListLe] at h1
    | cons b bs =>
      by_cases hab : a = b
      · subst hab
        simp only [charListLe, if_pos rfl] at h1 h2
        rw [ih bs h1 h2]
      · simp only [charListLe, if_neg hab] at h1
        simp only [charListLe, if_neg (Ne.symm hab)] at h2
        exact absurd (of_decide_eq_true h1)
          (not_lt_of_gt (of_decide_eq_true h2))

/-- Ordering of views by ascending string `key` (the `self.sorted('key')`
step of `filter_duplicate`). -/
def keyLe (a b : View) : Prop := charListLe a.key.toList b.key.toList = true

instance : DecidableRel keyLe := fun a b =>
  inferInstanceAs (Decidable (_ = true))
instance : IsTotal View keyLe := ⟨fun a b => charListLe_total _ _⟩
instance : IsTrans View keyLe := ⟨fun _ _ _ h h' => charListLe_trans _ _ _ h h'⟩

/-- Equal `charListLe`-comparable keys are equal strings. -/
theorem key_eq_of_le_le {a b : View} (h1 : keyLe a b) (h2 : keyLe b a) :
    a.key = b.key := by
  have hd : a.key.data = b.key.data := charListLe_antisymm _ _ h1 h2
  exact String.ext hd

/-- Ordering of views by ascending suitability key (the
`sorted(group, key=_sort_suitability_key)` step). -/
def suitLe (ctxWebsite : Option Nat) (a b : View) : Prop :=
  pairLe (a.sortSuitabilityKey ctxWebsite) (b.sortSuitabilityKey ctxWebsite)

instance (w : Option Nat) : DecidableRel (suitLe w) := fun a b =>
  inferInstanceAs (Decidable (pairLe _ _))
instance (w : Option Nat) : IsTotal View (suitLe w) :=
  ⟨fun a b => pairLe_total _ _⟩
instance (w : Option Nat) : IsTrans View (suitLe w) :=
  ⟨fun _ _ _ h h' => pairLe_trans h h'⟩

/-- Ordering of views by ascending `(priority, id)` (the final
`sorted(key=lambda view: (view.priority, view.id))` step). -/
def prioLe (a b : View) : Prop := pairLe (a.priority, a.id) (b.priority, b.id)

instance : DecidableRel prioLe := fun a b =>
  inferInstanceAs (Decidable (pairLe _ _))
instance : IsTotal View prioLe := ⟨fun a b => pairLe_total _ _⟩
instance : IsTrans View prioLe := ⟨fun _ _ _ h h' => pairLe_trans h h'⟩

/-- Grouping of consecutive equivalent elements, as `itertools.groupby`
does over an already sorted list. -/
def groupRuns (eq : α → α → Bool) : List α → List (List α)
  | [] => []
  | a :: l =>
    match groupRuns eq l with
    | [] => [[a]]
    | [] :: gs => [a] :: [] :: gs
    | (b :: g) :: gs =>
      if eq a b then (a :: b :: g) :: gs else [a] :: (b :: g) :: gs

/-- The `sorted(group, key=lambda record: record._sort_suitability_key())[0]`
step of `filter_duplicate`: stable sort of one key-group by ascending
suitability, keeping the head. -/
def pickWinner (ctxWebsite : Option Nat) (g : List View) : Option View :=
  (List.insertionSort (suitLe ctxWebsite) g).head?

/-- `filter_duplicate`: keep the most suitable view per distinct key.  The
recordset is sorted by `key`, grouped by consecutive equal keys as
`itertools.groupby` does, the head of each group's stable suitability sort is
kept, and the survivors are returned sorted by `(priority, id)`. -/
def filter_duplicate (ctxWebsite : Option Nat) (vs : List View) : List View :=
  let byKey := List.insertionSort keyLe vs
  let groups := groupRuns (fun a b => a.key == b.key) byKey
  let winners := groups.filterMap (pickWinner ctxWebsite)
  List.insertionSort prioLe winners

/-! ### Lemmas about `groupRuns` and `pickWinner` -/

theorem groupRuns_join (eq : α → α → Bool) :
    ∀ l : List α, (groupRuns eq l).flatten = l := by
  intro l
  induction l with
  | nil => rfl
  | cons a l ih =>
    simp only [groupRuns]
    cases h : groupRuns eq l with
    | nil =>
      rw [h] at ih; simp at ih
      simp [← ih]
    | cons g gs =>
      cases g with
      | nil =>
        rw [h] at ih; simp at ih
        simp [← ih]
      | cons b g' =>
        rw [h] at ih
        by_cases hab : eq a b
        · simp [hab, ← ih]
        · simp [hab, ← ih]

theorem mem_of_mem_groupRuns {eq : α → α → Bool} {l : List α} {g : List α}
    (hg : g ∈ groupRuns eq l) {a : α} (ha : a ∈ g) : a ∈ l := by
  rw [← groupRuns_join eq l]
  exact List.mem_flatten.mpr ⟨g, hg, ha⟩

theorem groupRuns_ne_nil (eq : α → α → Bool) :
    ∀ l : List α, ∀ g ∈ groupRuns eq l, g ≠ [] := by
  intro l
  induction l with
  | nil => intro g hg; simp [groupRuns] at hg
  | cons a l ih =>
    intro g hg
    simp only [groupRuns] at hg
    cases h : groupRuns eq l with
    | nil =>
      rw [h] at hg; simp at hg; simp [hg]
    | cons g₀ gs =>
      rw [h] at hg
      cases g₀ with
      | nil =>
        exact absurd rfl (ih [] (by rw [h]; exact List.mem_cons_self _ _))
      | cons b g' =>
        by_cases hab : eq a b <;> simp [hab] at hg
        · rcases hg with hg | hg
          · simp [hg]
          · exact ih g (h ▸ List.mem_cons_of_mem _ hg)
        · rcases hg with hg | hg | hg
          · simp [hg]
          · simp [hg]
          · exact ih g (h ▸ List.mem_cons_of_mem _ hg)

theorem groupRuns_keyConst :
    ∀ l : List View, ∀ g ∈ groupRuns (fun a b => a.key == b.key) l,
      ∀ a ∈ g, ∀ b ∈ g, a.key = b.key := by
  intro l
  induction l with
  | nil => intro g hg; simp [groupRuns] at hg
  | cons x l ih =>
    intro g hg
    simp only [groupRuns] at hg
    cases h : groupRuns (fun a b => a.key == b.key) l with
    | nil =>
      rw [h] at hg; simp at hg
      subst hg; intro a ha b hb; simp at ha hb; rw [ha, hb]
    | cons g₀ gs =>
      rw [h] at hg
      cases g₀ with
      | nil =>
        exact absurd rfl
          (groupRuns_ne_nil _ l [] (by rw [h]; exact List.mem_cons_self _ _))
      | cons y g' =>
        by_cases hxy : x.key == y.key <;> simp [hxy] at hg
        · rcases hg with hg | hg
          · subst hg
            have hyg : ∀ a ∈ y :: g', ∀ b ∈ y :: g', a.key = b.key :=
              ih (y :: g') (h ▸ List.mem_cons_self _ _)
            have hxk : x.key = y.key := by simpa using hxy
            intro a ha b hb
            rcases List.mem_cons.mp ha with ha | ha <;>
              rcases List.mem_cons.mp hb with hb | hb
            · rw [ha, hb]
            · rw [ha, hxk]; exact hyg y (List.mem_cons_self _ _) b hb
            · rw [hb, hxk]; exact (hyg y (List.mem_cons_self _ _) a ha).symm
            · exact hyg a ha b hb
          · exact ih g (h ▸ List.mem_cons_of_mem _ hg)
        · rcases hg with hg | hg | hg
          · subst hg; intro a ha b hb; simp at ha hb; rw [ha, hb]
          · exact ih g (h ▸ (hg ▸ List.mem_cons_self _ _))
          · exact ih g (h ▸ List.mem_cons_of_mem _ hg)

/-- Over a key-sorted list, distinct groups of `groupRuns` carry distinct
keys. -/
theorem groupRuns_pairwise_keys :
    ∀ l : List View, l.Sorted keyLe →
      (groupRuns (fun a b => a.key == b.key) l).Pairwise
        (fun g h => ∀ a ∈ g, ∀ b ∈ h, a.key ≠ b.key) := by
  intro l
  induction l with
  | nil => intro _; simp [groupRuns]
  | cons x l ih =>
    intro hs
    rw [List.sorted_cons] at hs
    obtain ⟨hx, hs⟩ := hs
    simp only [groupRuns]
    cases h : groupRuns (fun a b => a.key == b.key) l with
    | nil => simp
    | cons g₀ gs =>
      have ihp := ih hs
      rw [h] at ihp
      cases g₀ with
      | nil =>
        exact absurd rfl
          (groupRuns_ne_nil _ l [] (by rw [h]; exact List.mem_cons_self _ _))
      | cons y g' =>
        -- `y` is the head of `l`, so `y` is `keyLe`-minimal in `l`
        have hjoin : (y :: g') ++ (gs.flatten) = l := by
          have := groupRuns_join (fun (a b : View) => a.key == b.key) l
          rw [h] at this; simpa using this
        have hyl : y ∈ l := by rw [← hjoin]; simp
        by_cases hxy : x.key == y.key
        · simp only [hxy, if_pos]
          refine List.Pairwise.cons ?_ (List.Pairwise.sublist ?_ ihp)
          · intro h' hh' a ha b hb
            have hxk : x.key = y.key := by simpa using hxy
            have : ∀ c ∈ y :: g', ∀ b ∈ h', c.key ≠ b.key :=
              List.rel_of_pairwise_cons ihp hh'
            rcases List.mem_cons.mp ha with ha | ha
            · rw [ha, hxk]; exact this y (List.mem_cons_self _ _) b hb
            · exact this a ha b hb
          · exact (List.sublist_cons_self _ _)
        · simp only [hxy, if_neg, Bool.false_eq_true, not_false_iff]
          have hxk : x.key ≠ y.key := by simpa using hxy
          refine List.Pairwise.cons ?_ ihp
          intro h' hh' a ha b hb
          have hbl : b ∈ l :=
            @mem_of_mem_groupRuns _ (fun a b => a.key == b.key) _ _ (h ▸ hh') _ hb
          have hyb : keyLe y b := by
            rw [← hjoin] at hs
            rw [List.cons_append, List.sorted_cons] at hs
            rw [← hjoin] at hbl
            rcases List.mem_append.mp hbl with hbm | hbm
            · rcases List.mem_cons.mp hbm with hbm | hbm
              · rw [hbm]; exact charListLe_refl _
              · exact hs.1 b (List.mem_append.mpr (Or.inl hbm))
            · exact hs.1 b (List.mem_append.mpr (Or.inr hbm))
          simp at ha
          rw [ha]
          intro heq
          -- from `x.key = b.key`, `keyLe y b` becomes `keyLe y x`, and with
          -- `keyLe x y` antisymmetry forces `x.key = y.key`, contradiction
          have hyx : keyLe y x := by
            unfold keyLe at hyb ⊢
            rw [heq]
            exact hyb
          exact hxk (key_eq_of_le_le (hx y hyl) hyx)

theorem pickWinner_mem {w : Option Nat} {g : List View} {x : View}
    (h : pickWinner w g = some x) : x ∈ g := by
  unfold pickWinner at h
  have hperm := List.perm_insertionSort (suitLe w) g
  cases hsort : List.insertionSort (suitLe w) g with
  | nil => rw [hsort] at h; simp at h
  | cons a t =>
    rw [hsort] at h; simp at h
    rw [hsort] at hperm
    exact hperm.mem_iff.mp (h ▸ List.mem_cons_self _ _)

theorem pickWinner_isSome {w : Option Nat} {g : List View} (h : g ≠ []) :
    ∃ x, pickWinner w g = some x := by
  unfold pickWinner
  have hperm := List.perm_insertionSort (suitLe w) g
  cases hsort : List.insertionSort (suitLe w) g with
  | nil =>
    rw [hsort] at hperm
    exact absurd hperm.symm.eq_nil h
  | cons a t => exact ⟨a, rfl⟩

theorem pickWinner_min {w : Option Nat} {g : List View} {x : View}
    (h : pickWinner w g = some x) : ∀ y ∈ g, suitLe w x y := by
  intro y hy
  unfold pickWinner at h
  have hperm := List.perm_insertionSort (suitLe w) g
  have hsorted := List.sorted_insertionSort (suitLe w) g
  cases hsort : List.insertionSort (suitLe w) g with
  | nil => rw [hsort] at h; simp at h
  | cons a t =>
    rw [hsort] at h hperm hsorted
    simp only [List.head?] at h
    have hax : a = x := Option.some.inj h
    subst hax
    have hy' : y ∈ a :: t := hperm.symm.subset hy
    rcases List.mem_cons.mp hy' with hy' | hy'
    · rw [hy']; exact pairLe_refl _
    · exact List.rel_of_sorted_cons hsorted y hy'

/-- Combined properties of the per-group winner extraction: one winner per
group, winners are suitability-minimal members of their groups, and group
keys are exactly the winners' keys. -/
theorem winners_spec (w : Option Nat) :
    ∀ gs : List (List View),
      (∀ g ∈ gs, g ≠ []) →
      (∀ g ∈ gs, ∀ a ∈ g, ∀ b ∈ g, a.key = b.key) →
      gs.Pairwise (fun g h => ∀ a ∈ g, ∀ b ∈ h, a.key ≠ b.key) →
      ((gs.filterMap (pickWinner w)).map View.key).Nodup ∧
      (∀ x ∈ gs.filterMap (pickWinner w),
        ∃ g ∈ gs, x ∈ g ∧ ∀ y ∈ g, suitLe w x y) ∧
      (∀ k : String, (∃ x ∈ gs.filterMap (pickWinner w), x.key = k) ↔
        ∃ g ∈ gs, ∃ a ∈ g, a.key = k) := by
  intro gs
  induction gs with
  | nil => intro _ _ _; simp
  | cons g gs ih =>
    intro hne hkc hpw
    obtain ⟨x₀, hx₀⟩ := pickWinner_isSome (w := w) (hne g (List.mem_cons_self _ _))
    have hx₀g : x₀ ∈ g := pickWinner_mem hx₀
    have hfm : (g :: gs).filterMap (pickWinner w) =
        x₀ :: gs.filterMap (pickWinner w) := by
      rw [List.filterMap_cons, hx₀]
    obtain ⟨ih₁, ih₂, ih₃⟩ := ih
      (fun h hh => hne h (List.mem_cons_of_mem _ hh))
      (fun h hh => hkc h (List.mem_cons_of_mem _ hh))
      (List.Pairwise.sublist (List.sublist_cons_self _ _) hpw)
    refine ⟨?_, ?_, ?_⟩
    · rw [hfm]
      simp only [List.map_cons, List.nodup_cons]
      refine ⟨?_, ih₁⟩
      intro hmem
      obtain ⟨y, hy, hyk⟩ := List.mem_map.mp hmem
      obtain ⟨h, hh, hyh, _⟩ := ih₂ y hy
      exact List.rel_of_pairwise_cons hpw hh x₀ hx₀g y hyh hyk.symm
    · rw [hfm]
      intro x hx
      rcases List.mem_cons.mp hx with hx | hx
      · exact ⟨g, List.mem_cons_self _ _, hx ▸ hx₀g, hx ▸ pickWinner_min hx₀⟩
      · obtain ⟨h, hh, hxh, hmin⟩ := ih₂ x hx
        exact ⟨h, List.mem_cons_of_mem _ hh, hxh, hmin⟩
    · rw [hfm]
      intro k
      constructor
      · rintro ⟨x, hx, hxk⟩
        rcases List.mem_cons.mp hx with hx | hx
        · exact ⟨g, List.mem_cons_self _ _, x₀, hx₀g, hx ▸ hxk⟩
        · obtain ⟨h, hh, a, ha, hak⟩ := (ih₃ k).mp ⟨x, hx, hxk⟩
          exact ⟨h, List.mem_cons_of_mem _ hh, a, ha, hak⟩
      · rintro ⟨h, hh, a, ha, hak⟩
        rcases List.mem_cons.mp hh with hh | hh
        · subst hh
          exact ⟨x₀, List.mem_cons_self _ _,
            (hkc h (List.mem_cons_self _ _) x₀ hx₀g a ha).trans hak⟩
        · obtain ⟨x, hx, hxk⟩ := (ih₃ k).mpr ⟨h, hh, a, ha, hak⟩
          exact ⟨x, List.mem_cons_of_mem _ hx, hxk⟩

/-- Every survivor of `filter_duplicate` comes from the input set and is
suitability-minimal among all input records sharing its key. -/
theorem fd_mem_and_min (w : Option Nat) (vs : List View) :
    ∀ r ∈ filter_duplicate w vs,
      r ∈ vs ∧ ∀ v ∈ vs, v.key = r.key → suitLe w r v := by
  intro r hr
  have hsorted := List.sorted_insertionSort keyLe vs
  have hperm := List.perm_insertionSort keyLe vs
  have hne := groupRuns_ne_nil (fun (a b : View) => a.key == b.key)
    (List.insertionSort keyLe vs)
  have hkc := groupRuns_keyConst (List.insertionSort keyLe vs)
  have hpw := groupRuns_pairwise_keys (List.insertionSort keyLe vs) hsorted
  obtain ⟨_, hws, _⟩ := winners_spec w _ hne hkc hpw
  have hr' : r ∈ (groupRuns (fun (a b : View) => a.key == b.key)
      (List.insertionSort keyLe vs)).filterMap (pickWinner w) :=
    (List.perm_insertionSort prioLe _).subset hr
  obtain ⟨g, hg, hrg, hmin⟩ := hws r hr'
  have hrvs : r ∈ vs := hperm.subset (mem_of_mem_groupRuns hg hrg)
  refine ⟨hrvs, ?_⟩
  intro v hv hvk
  have hvfl : v ∈ (groupRuns (fun (a b : View) => a.key == b.key)
      (List.insertionSort keyLe vs)).flatten := by
    rw [groupRuns_join]
    exact hperm.symm.subset hv
  obtain ⟨h, hh, hvh⟩ := List.mem_flatten.mp hvfl
  by_cases hgh : g = h
  · exact hmin v (hgh ▸ hvh)
  · have hsym : Symmetric (fun (g h : List View) =>
        ∀ a ∈ g, ∀ b ∈ h, a.key ≠ b.key) := by
      intro p q hpq a ha b hb
      exact (hpq b hb a ha).symm
    have := hpw.forall hsym hg hh hgh r hrg v hvh
    exact absurd hvk.symm this

/-- The surviving keys are pairwise distinct: one record per distinct key. -/
theorem fd_nodup_keys (w : Option Nat) (vs : List View) :
    ((filter_duplicate w vs).map View.key).Nodup := by
  have hsorted := List.sorted_insertionSort keyLe vs
  have hne := groupRuns_ne_nil (fun (a b : View) => a.key == b.key)
    (List.insertionSort keyLe vs)
  have hkc := groupRuns_keyConst (List.insertionSort keyLe vs)
  have hpw := groupRuns_pairwise_keys (List.insertionSort keyLe vs) hsorted
  obtain ⟨hnd, _, _⟩ := winners_spec w _ hne hkc hpw
  have hperm : List.Perm (filter_duplicate w vs)
      ((groupRuns (fun (a b : View) => a.key == b.key)
        (List.insertionSort keyLe vs)).filterMap (pickWinner w)) :=
    List.perm_insertionSort prioLe _
  exact (hperm.map View.key).nodup_iff.mpr hnd

/-- A key survives `filter_duplicate` exactly when it occurs in the input. -/
theorem fd_keys_iff (w : Option Nat) (vs : List View) (k : String) :
    (∃ r ∈ filter_duplicate w vs, r.key = k) ↔ ∃ v ∈ vs, v.key = k := by
  have hsorted := List.sorted_insertionSort keyLe vs
  have hperm := List.perm_insertionSort keyLe vs
  have hne := groupRuns_ne_nil (fun (a b : View) => a.key == b.key)
    (List.insertionSort keyLe vs)
  have hkc := groupRuns_keyConst (List.insertionSort keyLe vs)
  have hpw := groupRuns_pairwise_keys (List.insertionSort keyLe vs) hsorted
  obtain ⟨_, _, hks⟩ := winners_spec w _ hne hkc hpw
  have hpermW : List.Perm (filter_duplicate w vs)
      ((groupRuns (fun (a b : View) => a.key == b.key)
        (List.insertionSort keyLe vs)).filterMap (pickWinner w)) :=
    List.perm_insertionSort prioLe _
  constructor
  · rintro ⟨r, hr, hrk⟩
    obtain ⟨g, hg, a, ha, hak⟩ := (hks k).mp ⟨r, hpermW.subset hr, hrk⟩
    exact ⟨a, hperm.subset (mem_of_mem_groupRuns hg ha), hak⟩
  · rintro ⟨v, hv, hvk⟩
    have hvfl : v ∈ (groupRuns (fun (a b : View) => a.key == b.key)
        (List.insertionSort keyLe vs)).flatten := by
      rw [groupRuns_join]
      exact hperm.symm.subset hv
    obtain ⟨h, hh, hvh⟩ := List.mem_flatten.mp hvfl
    obtain ⟨x, hx, hxk⟩ := (hks k).mpr ⟨h, hh, v, hvh, hvk⟩
    exact ⟨x, hpermW.symm.subset hx, hxk⟩

/-- The result of `filter_duplicate` is sorted by ascending `(priority, id)`. -/
theorem fd_sorted (w : Option Nat) (vs : List View) :
    (filter_duplicate w vs).Sorted prioLe :=
  List.sorted_insertionSort prioLe _


theorem sKey_fst (c : Option Nat) (v : View) :
    (v.sortSuitabilityKey c).1 =
      if c.getD 1 ≠ v.website_id.getD 0 then 1 else 0 := rfl

theorem sKey_snd (c : Option Nat) (v : View) :
    (v.sortSuitabilityKey c).2 = v.website_id.getD 0 := rfl

theorem sKey_matching (w : Nat) (v : View) (h : v.website_id = some w) :
    v.sortSuitabilityKey (some w) = (0, w) := by
  simp [View.sortSuitabilityKey, h]

theorem sKey_generic (w : Nat) (hw : 0 < w) (v : View)
    (h : v.website_id = none) : v.sortSuitabilityKey (some w) = (1, 0) := by
  simp [View.sortSuitabilityKey, h, Nat.pos_iff_ne_zero.mp hw]

/-- C3: `filter_duplicate` returns exactly one record per distinct key — the
record whose `website_id` equals the context's current website if one is
present, otherwise a generic record (website absent) ahead of records scoped
to other websites — and the survivors are ordered by `(priority, id)`
ascending.  Determinism for identical inputs holds because
`filter_duplicate` is a pure function of the context website and recordset. -/
theorem C3_filter_duplicate_one_per_key (w : Nat) (hw : 0 < w)
    (vs : List View) (hno0 : ∀ v ∈ vs, v.website_id ≠ some 0) :
    ((filter_duplicate (some w) vs).map View.key).Nodup ∧
    (∀ k : String, (∃ r ∈ filter_duplicate (some w) vs, r.key = k) ↔
      ∃ v ∈ vs, v.key = k) ∧
    (∀ r ∈ filter_duplicate (some w) vs, r ∈ vs) ∧
    (∀ r ∈ filter_duplicate (some w) vs,
      (∃ v ∈ vs, v.key = r.key ∧ v.website_id = some w) →
        r.website_id = some w) ∧
    (∀ r ∈ filter_duplicate (some w) vs,
      (∀ v ∈ vs, v.key = r.key → v.website_id ≠ some w) →
      (∃ v ∈ vs, v.key = r.key ∧ v.website_id = none) →
        r.website_id = none) ∧
    (filter_duplicate (some w) vs).Sorted prioLe := by
  refine ⟨fd_nodup_keys _ _, fun k => fd_keys_iff _ _ _,
    fun r hr => (fd_mem_and_min _ _ r hr).1, ?_, ?_, fd_sorted _ _⟩
  · rintro r hr ⟨v, hv, hvk, hvw⟩
    have hmin := (fd_mem_and_min (some w) vs r hr).2 v hv hvk
    rw [suitLe, sKey_matching w v hvw] at hmin
    rcases hmin with h | ⟨h1, _⟩
    · exact absurd h (Nat.not_lt_zero _)
    · rw [sKey_fst] at h1
      by_cases hc : (some w).getD 1 ≠ r.website_id.getD 0
      · rw [if_pos hc] at h1; exact absurd h1 one_ne_zero
      · push_neg at hc
        simp only [Option.getD_some] at hc
        cases hrw : r.website_id with
        | none => rw [hrw] at hc; simp at hc; omega
        | some x => rw [hrw] at hc; simp at hc; rw [hc]
  · rintro r hr hns ⟨v, hv, hvk, hvw⟩
    obtain ⟨hrvs, hmin'⟩ := fd_mem_and_min (some w) vs r hr
    have hmin := hmin' v hv hvk
    rw [suitLe, sKey_generic w hw v hvw] at hmin
    have hrfst : (r.sortSuitabilityKey (some w)).1 = 1 := by
      rw [sKey_fst]
      by_cases hc : (some w).getD 1 ≠ r.website_id.getD 0
      · rw [if_pos hc]
      · exfalso
        push_neg at hc
        simp only [Option.getD_some] at hc
        cases hrw : r.website_id with
        | none => rw [hrw] at hc; simp at hc; omega
        | some x =>
          rw [hrw] at hc; simp at hc
          exact (hns r hrvs rfl) (by rw [hrw, hc])
    rcases hmin with h | ⟨_, h2⟩
    · rw [hrfst] at h; omega
    · rw [sKey_snd] at h2
      cases hrw : r.website_id with
      | none => rfl
      | some x =>
        rw [hrw] at h2
        simp only [Option.getD_some, Nat.le_zero] at h2
        exact absurd (hrw.trans (by rw [h2])) (hno0 r hrvs)

/-- A concrete view record, for witness instantiations. -/
def mkView (i : Nat) (k : String) (ws : Option Nat) (th : Option Nat)
    (inh : Option Nat) (act : Bool) (pri : Nat) : View :=
  ⟨i, k, "view", "<arch/>", ws, th, inh, act, pri⟩

/-- Concrete recordset for the C3 witness: a website-1 specific record and a
generic record sharing one key. -/
def c3vs : List View :=
  [mkView 1 "k" (some 1) none none true 16,
   mkView 2 "k" none none none true 16]

/-- Witness for C3 at a concrete two-record input. -/
theorem C3_filter_duplicate_one_per_key_witness :
    (0 < 1 ∧ ∀ v ∈ c3vs, v.website_id ≠ some 0) ∧
    (((filter_duplicate (some 1) c3vs).map View.key).Nodup ∧
     (∀ k : String, (∃ r ∈ filter_duplicate (some 1) c3vs, r.key = k) ↔
       ∃ v ∈ c3vs, v.key = k) ∧
     (∀ r ∈ filter_duplicate (some 1) c3vs, r ∈ c3vs) ∧
     (∀ r ∈ filter_duplicate (some 1) c3vs,
       (∃ v ∈ c3vs, v.key = r.key ∧ v.website_id = some 1) →
         r.website_id = some 1) ∧
     (∀ r ∈ filter_duplicate (some 1) c3vs,
       (∀ v ∈ c3vs, v.key = r.key → v.website_id ≠ some 1) →
       (∃ v ∈ c3vs, v.key = r.key ∧ v.website_id = none) →
         r.website_id = none) ∧
     (filter_duplicate (some 1) c3vs).Sorted prioLe) :=
  ⟨⟨Nat.one_pos, by decide⟩,
    C3_filter_duplicate_one_per_key 1 Nat.one_pos c3vs (by decide)⟩

/-- C9: when the context carries no website id, the suitability key defaults
the current website to 1, so for a pair of same-key templates of which one
is scoped to website 1 and the other is generic, `filter_duplicate` with no
website context keeps the website-1 record (in either input order). -/
theorem C9_no_context_defaults_to_website_one (v1 v2 : View)
    (hk : v1.key = v2.key) (h1 : v1.website_id = some 1)
    (h2 : v2.website_id = none) :
    filter_duplicate none [v1, v2] = [v1] ∧
    filter_duplicate none [v2, v1] = [v1] := by
  constructor <;>
    simp [filter_duplicate, List.insertionSort, List.orderedInsert, groupRuns,
      pickWinner, keyLe, suitLe, View.sortSuitabilityKey, pairLe, hk, h1, h2,
      charListLe_refl, prioLe]

/-- Witness for C9 at a concrete pair of records. -/
theorem C9_no_context_defaults_to_website_one_witness :
    ((mkView 1 "k" (some 1) none none true 16).key =
      (mkView 2 "k" none none none true 16).key ∧
     (mkView 1 "k" (some 1) none none true 16).website_id = some 1 ∧
     (mkView 2 "k" none none none true 16).website_id = none) ∧
    (filter_duplicate none [mkView 1 "k" (some 1) none none true 16,
       mkView 2 "k" none none none true 16] =
         [mkView 1 "k" (some 1) none none true 16] ∧
     filter_duplicate none [mkView 2 "k" none none none true 16,
       mkView 1 "k" (some 1) none none true 16] =
         [mkView 1 "k" (some 1) none none true 16]) :=
  ⟨⟨rfl, rfl, rfl⟩,
    C9_no_context_defaults_to_website_one _ _ rfl rfl rfl⟩

/-! ### The record store: views, pages, menus, websites, module data -/

/-- A `website.page` record: owned by exactly one view. -/
structure Page where
  id : Nat
  name : String
  view_id : Nat
  deriving DecidableEq, Repr

/-- A `website.menu` record referencing a page. -/
structure Menu where
  id : Nat
  name : String
  page_id : Nat
  website_id : Option Nat
  deriving DecidableEq, Repr

/-- An `ir.model.data` record for a view: the external id's owning module for
`res_id` (the model is always `ir.ui.view` here). -/
structure ModelData where
  module : String
  name : String
  res_id : Nat
  deriving DecidableEq, Repr

/-- An `ir.module.module` record. -/
structure IrModule where
  id : Nat
  name : String
  deriving DecidableEq, Repr

/-- A `website` record with its enabled themes. -/
structure Website where
  id : Nat
  theme_ids : List Nat
  deriving DecidableEq, Repr

/-- The relevant slice of the database.  `nextId` is the id the storage
engine hands out to the next created record (copies get fresh ids). -/
structure DB where
  views : List View
  pages : List Page
  menus : List Menu
  websites : List Website
  modelData : List ModelData
  modules : List IrModule
  nextId : Nat
  deriving DecidableEq, Repr

/-- The ambient context of a call: optional current website id, the module
name in `install_mode_data` (empty string when absent, as
`self._context.get('install_mode_data', {}).get('module', '')` defaults),
and the `no_cow` bypass flag. -/
structure Ctx where
  website_id : Option Nat
  install_module : String
  no_cow : Bool
  deriving DecidableEq, Repr

/-- The field assignments of a `write(vals)` call; `none` means the field is
not written. -/
structure Vals where
  key : Option String := none
  name : Option String := none
  arch : Option String := none
  website_id : Option (Option Nat) := none
  theme_id : Option (Option Nat) := none
  inherit_id : Option (Option Nat) := none
  active : Option Bool := none
  priority : Option Nat := none
  deriving DecidableEq, Repr

/-- Apply a `vals` dict to a record (the storage engine's field update). -/
def applyVals (vals : Vals) (v : View) : View :=
  { v with
    key := vals.key.getD v.key
    name := vals.name.getD v.name
    arch := vals.arch.getD v.arch
    website_id := vals.website_id.getD v.website_id
    theme_id := vals.theme_id.getD v.theme_id
    inherit_id := vals.inherit_id.getD v.inherit_id
    active := vals.active.getD v.active
    priority := vals.priority.getD v.priority }

/-- `browse` of a single view id. -/
def DB.findView (db : DB) (i : Nat) : Option View :=
  db.views.find? (fun v => v.id == i)

/-- `super().write` of the base storage engine: update the named fields of
the records with the given ids, in place. -/
def superWrite (ids : List Nat) (vals : Vals) (db : DB) : DB :=
  { db with views :=
      (db.views.map (fun v => if v.id ∈ ids then applyVals vals v else v)) }

/-- The storage engine's `copy(default)`: duplicate a record under a fresh
id, with `f` applying the default overrides. -/
def DB.copyView (db : DB) (v : View) (f : View → View) : View × DB :=
  let nv := f { v with id := db.nextId }
  (nv, { db with views := db.views ++ [nv], nextId := db.nextId + 1 })

/-- `view.inherit_children_ids`: the views whose `inherit_id` points at the
given view. -/
def inheritChildren (db : DB) (i : Nat) : List View :=
  db.views.filter (fun u => u.inherit_id == some i)

/-- Occurrence of `pat` as a contiguous sublist (used for the Python
substring test `in`). -/
def hasSubList (pat : List Char) : List Char → Bool
  | [] => decide (pat = [])
  | c :: rest => pat.isPrefixOf (c :: rest) || hasSubList pat rest

/-- The Python `'theme_' in currently_updating` substring test. -/
def hasThemeSubstring (s : String) : Bool :=
  hasSubList "theme_".toList s.toList

/-- Modelled from the spec: `website.menu`'s own COW (the menu model's
implementation is outside this repository slice; the source only calls
`menu.write({'page_id': new_page.id})` with a `# trigger COW` comment).
Per the spec's ownership invariant, forked menus are newly created records
owned by the new website fork, not shared with the original: writing
`page_id` under a website context appends a website-specific copy of the
menu carrying the new page reference and leaves the original menu record
unchanged. -/
def menu_cow_write (w : Nat) (menuId : Nat) (newPageId : Nat) (db : DB) : DB :=
  match db.menus.find? (fun m => m.id == menuId) with
  | none => db
  | some m =>
    { db with
      menus :=
        (db.menus ++
          [{ m with id := db.nextId, page_id := newPageId, website_id := some w }])
      nextId := db.nextId + 1 }

/-- `_create_website_specific_pages_for_view`: copy every page owned by the
original view onto the new view, and rewrite each original page's menus to
the corresponding new page (triggering the menu COW). -/
def _create_website_specific_pages_for_view (origViewId : Nat)
    (newViewId : Nat) (w : Nat) (db : DB) : DB :=
  (db.pages.filter (fun p => p.view_id == origViewId)).foldl
    (fun d p =>
      let newPageId := d.nextId
      let d1 : DB := { d with
        pages := d.pages ++ [{ p with id := newPageId, view_id := newViewId }]
        nextId := d.nextId + 1 }
      (d1.menus.filter (fun m => m.page_id == p.id)).foldl
        (fun d2 m => menu_cow_write w m.id newPageId d2) d1)
    db

/-- `_get_theme_specific_view`: during a theme module update, divert to an
existing theme-specific copy keyed by `(key, theme)`, or create one, but
only when the view has an external id owned by a different module than the
updating theme. -/
def _get_theme_specific_view (theme_name : String) (v : View) (db : DB) :
    View × DB :=
  let module_being_updated := db.modules.find? (fun m => m.name == theme_name)
  match db.modelData.find? (fun d => d.res_id == v.id) with
  | none => (v, db)
  | some xml_id =>
    if xml_id.module = theme_name then (v, db)
    else
      match db.views.find? (fun u =>
          u.key == v.key &&
          u.theme_id == module_being_updated.map IrModule.id) with
      | some theme_specific_view => (theme_specific_view, db)
      | none =>
        db.copyView v
          (fun u => { u with theme_id := module_being_updated.map IrModule.id })

/-- `write`: the COW interception.  Without the `no_cow` bypass, each view
in the set is first diverted to its theme-specific copy when a theme module
is being updated (dropping the website scope for that iteration); then a
generic view under a current-website context is forked — copy with
`website_id` set, website-specific pages created, inheriting children
repointed at the fork (each child `write` recursively triggering COW) — and
`vals` is applied to the fork only; otherwise the update is applied in
place.  `fuel` bounds the recursion depth (the Python recursion terminates
because the inheritance graph is acyclic); at fuel 0 the call is a no-op.
`writeStepF` is the loop body for one view of the set, with `wr` standing
for the recursive `write` call at the next lower fuel. -/
def writeStepF (wr : Ctx → List Nat → Vals → DB → DB) (ctx : Ctx)
    (vals : Vals) (d : DB) (i : Nat) : DB :=
  match d.findView i with
  | none => d
  | some view0 =>
    let currently_updating := ctx.install_module
    let themed := hasThemeSubstring currently_updating
    let vd := if themed
      then _get_theme_specific_view currently_updating view0 d
      else (view0, d)
    let view := vd.1
    let d1 := vd.2
    let current_website_id : Option Nat :=
      if themed then none else ctx.website_id
    match current_website_id, view.website_id with
    | some w, none =>
      let nd := d1.copyView view (fun u => { u with website_id := some w })
      let new_website_specific_view := nd.1
      let d2 := nd.2
      let d3 := _create_website_specific_pages_for_view view.id
        new_website_specific_view.id w d2
      let d4 := (inheritChildren d3 view.id).foldl
        (fun dd inherit_child => wr ctx [inherit_child.id]
          { inherit_id := some (some new_website_specific_view.id) } dd)
        d3
      wr ctx [new_website_specific_view.id] vals d4
    | _, _ => superWrite [view.id] vals d1

def write : Nat → Ctx → List Nat → Vals → DB → DB
  | 0, _, _, _, db => db
  | fuel+1, ctx, ids, vals, db =>
    if ctx.no_cow then superWrite ids vals db
    else
      ids.foldl
        (writeStepF (fun ctx ids vals db => write fuel ctx ids vals db)
          ctx vals)
        db

/-- `unlink`: COU interception.  Under a website context without the bypass
flag, every generic view of the set is first forked for every *other*
website by a key-renaming write (reusing the COW machinery, which also
copies pages and menus); the deletion set is then expanded to every view
sharing a key with the set (searched with active_test disabled), and the
expanded set is removed.  (`clear_caches` has no observable effect in this
embedding, which carries no cache.) -/
def unlink (fuel : Nat) (ctx : Ctx) (ids : List Nat) (db : DB) : DB :=
  let current_website_id := ctx.website_id
  let db1 : DB :=
    match current_website_id, ctx.no_cow with
    | some w, false =>
      ((ids.filterMap db.findView).filter
          (fun view => view.website_id == none)).foldl
        (fun (d : DB) (view : View) =>
          (d.websites.filter (fun site => site.id != w)).foldl
            (fun (d' : DB) (site : Website) =>
              match d'.findView view.id with
              | none => d'
              | some cur =>
                write fuel { ctx with website_id := some site.id } [view.id]
                  { key := some (cur.key ++ " [website " ++ toString site.id ++ "]") }
                  d')
            d)
        db
    | _, _ => db
  let keys : List String := ((ids.filterMap db1.findView).map View.key).filter
    (fun k => k != "")
  let delIds := ids ++
    ((db1.views.filter (fun v => keys.contains v.key)).map View.id)
  { db1 with views := (db1.views.filter (fun v => !(delIds.contains v.id))) }

/-! ### Website-aware view resolution -/

/-- Modelled from the spec: `website.website_domain` (the website model is
outside this repository slice): the filter selecting records visible to a
website — generic records, or records scoped to that website; for an absent
website it degrades to generic records only. -/
def websiteDomain (w : Option Nat) (v : View) : Bool :=
  v.website_id == none || v.website_id == w

/-- Sort key for `order='website_id'` (SQL ascending puts NULLs last). -/
def websiteOrderKey (v : View) : Nat × Nat :=
  match v.website_id with
  | some x => (0, x)
  | none => (1, 0)

/-- Ordering of views for `order='website_id'`. -/
def websiteOrderLe (a b : View) : Prop :=
  pairLe (websiteOrderKey a) (websiteOrderKey b)

instance : DecidableRel websiteOrderLe := fun a b =>
  inferInstanceAs (Decidable (pairLe _ _))
instance : IsTotal View websiteOrderLe := ⟨fun a b => pairLe_total _ _⟩
instance : IsTrans View websiteOrderLe :=
  ⟨fun _ _ _ h h' => pairLe_trans h h'⟩

/-- The base model order of `ir.ui.view` (`_order = 'priority, name'`). -/
def defaultOrderLe (a b : View) : Prop :=
  a.priority < b.priority ∨
    (a.priority = b.priority ∧ charListLe a.name.toList b.name.toList = true)

instance : DecidableRel defaultOrderLe := fun a b => by
  unfold defaultOrderLe; infer_instance
instance : IsTotal View defaultOrderLe := by
  constructor; intro a b
  unfold defaultOrderLe
  rcases Nat.lt_trichotomy a.priority b.priority with h | h | h
  · exact Or.inl (Or.inl h)
  · rcases charListLe_total a.name.toList b.name.toList with h' | h'
    · exact Or.inl (Or.inr ⟨h, h'⟩)
    · exact Or.inr (Or.inr ⟨h.symm, h'⟩)
  · exact Or.inr (Or.inl h)
instance : IsTrans View defaultOrderLe := by
  constructor; intro a b c h h'
  unfold defaultOrderLe at *
  rcases h with h | ⟨h, h₂⟩ <;> rcases h' with h' | ⟨h', h₂'⟩
  · exact Or.inl (h.trans h')
  · exact Or.inl (h' ▸ h)
  · exact Or.inl (h ▸ h')
  · exact Or.inr ⟨h.trans h', charListLe_trans _ _ _ h₂ h₂'⟩

instance {e : Type u} {a : Type v} [DecidableEq e] [DecidableEq a] :
    DecidableEq (Except e a) := fun x y =>
  match x, y with
  | .ok u, .ok v =>
    if h : u = v then .isTrue (congrArg Except.ok h)
    else .isFalse (fun hc => h (Except.ok.inj hc))
  | .error u, .error v =>
    if h : u = v then .isTrue (congrArg Except.error h)
    else .isFalse (fun hc => h (Except.error.inj hc))
  | .ok _, .error _ => .isFalse (fun hc => Except.noConfusion hc)
  | .error _, .ok _ => .isFalse (fun hc => Except.noConfusion hc)

/-- An argument to `get_view_id`: a numeric id or a string key. -/
inductive XmlRef where
  | id (n : Nat)
  | key (s : String)
  deriving DecidableEq, Repr

/-- Modelled from the spec: the base engine's `get_view_id` — a numeric id
is returned as-is, a string is resolved through external references
(`ir.model.data`), failing when absent. -/
def superGetViewId (db : DB) (x : XmlRef) : Except String Nat :=
  match x with
  | .id n => .ok n
  | .key s =>
    match db.modelData.find? (fun d => d.module ++ "." ++ d.name == s) with
    | some d => .ok d.res_id
    | none => .error s

/-- The search domain of `get_view_id` under a website context: the key,
AND (theme-domain OR theme-unscoped website-domain), AND the implicit
active filter of `search`. -/
def getViewIdDomain (theme_ids : List Nat) (wid : Nat) (s : String)
    (v : View) : Bool :=
  ((match v.theme_id with
    | some t => theme_ids.contains t
    | none => false) ||
   (v.theme_id == none && websiteDomain (some wid) v)) &&
  v.key == s && v.active

/-- The enabled themes of the context website (empty when the website record
does not exist, as `browse` of a missing id yields). -/
def themesOf (db : DB) (wid : Nat) : List Nat :=
  ((db.websites.find? (fun ws => ws.id == wid)).map Website.theme_ids).getD []

/-- `get_view_id`: under a website context a non-integer key is resolved by
searching views matching the key and (theme-domain OR theme-unscoped
website-domain), ordered by `website_id` with limit 1, raising when nothing
matches; otherwise the base resolution applies. -/
def get_view_id (ctx : Ctx) (db : DB) (xml_id : XmlRef) : Except String Nat :=
  match ctx.website_id, xml_id with
  | some wid, .key s =>
    match (List.insertionSort websiteOrderLe
        (db.views.filter (getViewIdDomain (themesOf db wid) wid s))).head? with
    | some view => .ok view.id
    | none => .error s
  | _, _ => superGetViewId db xml_id

/-- An argument to `_view_obj`: a string key, an integer id, or an already
resolved view recordset. -/
inductive ViewArg where
  | str (s : String)
  | intg (n : Nat)
  | obj (vs : List View)
  deriving DecidableEq, Repr

/-- Modelled from the spec: `env.ref` — resolve a fully qualified external
id to its record, failing when absent (external collaborator). -/
def envRef (db : DB) (s : String) : Except String (List View) :=
  match db.modelData.find? (fun d => d.module ++ "." ++ d.name == s) with
  | some d => .ok (db.views.filter (fun v => v.id == d.res_id))
  | none => .error s

/-- The search domain of `_view_obj` for a string key: the key equality,
the website domain when the context carries a website id, and the implicit
active filter of `search`. -/
def viewObjDomain (c : Option Nat) (s : String) (v : View) : Bool :=
  match c with
  | some _ => v.key == s && websiteDomain c v && v.active
  | none => v.key == s && v.active

/-- `_view_obj`: a string key is resolved by a domain search (website-aware
when the context carries a website id) followed by duplicate collapsing,
falling back to the external-reference lookup when the search is empty; an
integer is browsed; anything else is assumed to already be a view object
and returned unchanged. -/
def _view_obj (ctx : Ctx) (db : DB) (view_id : ViewArg) :
    Except String (List View) :=
  match view_id with
  | .str s =>
    if ctx.website_id.isSome then
      let views := List.insertionSort websiteOrderLe
        (db.views.filter (viewObjDomain ctx.website_id s))
      if views ≠ [] then .ok (filter_duplicate ctx.website_id views)
      else envRef db s
    else
      let views := List.insertionSort defaultOrderLe
        (db.views.filter (viewObjDomain ctx.website_id s))
      if views ≠ [] then .ok (filter_duplicate ctx.website_id views)
      else envRef db s
  | .intg n => .ok (db.views.filter (fun v => v.id == n))
  | .obj vs => .ok vs

/-! ### Inheritance-arch resolution -/

/-- A leaf of the base inheritance domain (kept as data so that the website
override can strip the `active` leaf as the source does). -/
inductive Leaf where
  | inheritEq (n : Nat)
  | modelEq (s : String)
  | activeTrue
  deriving DecidableEq, Repr

/-- Semantics of one domain leaf (the embedding carries a single model, so a
model leaf always matches). -/
def leafSem (l : Leaf) (v : View) : Bool :=
  match l with
  | .inheritEq n => v.inherit_id == some n
  | .modelEq _ => true
  | .activeTrue => v.active

/-- Whether a leaf mentions `active` (the override's strip test). -/
def leafMentionsActive : Leaf → Bool
  | .activeTrue => true
  | _ => false

/-- Modelled from the spec: the base `_get_inheriting_views_arch_domain`
(the base `ir.ui.view` model is outside this repository slice): inheriting
views of the base view on the given model, with an explicit `active` leaf. -/
def superInheritingDomain (view_id : Nat) (model : String) : List Leaf :=
  [.inheritEq view_id, .modelEq model, .activeTrue]

/-- `_get_inheriting_views_arch_domain`: when a website context is present,
strip the `active` leaves from the base domain and conjoin the website
domain (OR'd with the theme domain when the website has themes). -/
def _get_inheriting_views_arch_domain (ctx : Ctx) (db : DB) (view_id : Nat)
    (model : String) : View → Bool :=
  let domain0 := superInheritingDomain view_id model
  match ctx.website_id with
  | none =>
    fun v => websiteDomain none v && domain0.all (fun l => leafSem l v)
  | some wid =>
    let domain1 := domain0.filter (fun l => !(leafMentionsActive l))
    let theme_ids :=
      ((db.websites.find? (fun ws => ws.id == wid)).map Website.theme_ids).getD []
    fun v =>
      (websiteDomain (some wid) v ||
       (theme_ids ≠ [] &&
        match v.theme_id with
        | some t => theme_ids.contains t
        | none => false)) &&
      domain1.all (fun l => leafSem l v)

/-- Modelled from the spec: the base `get_inheriting_views_arch` — search
the views matching `_get_inheriting_views_arch_domain` (honouring the
context's active_test), in base model order, returning `(arch, id)`
pairs. -/
def superGetInheritingViewsArch (ctx : Ctx) (activeTest : Bool) (db : DB)
    (view_id : Nat) (model : String) : List (String × Nat) :=
  let dom := _get_inheriting_views_arch_domain ctx db view_id model
  (List.insertionSort defaultOrderLe
    (db.views.filter (fun v => dom v && (!activeTest || v.active)))).map
    (fun v => (v.arch, v.id))

/-- `get_inheriting_views_arch`: with no website context, delegate; with a
website context, resolve with active-filtering disabled, collapse
duplicates (letting an inactive website-specific fork outrank an active
generic one), then drop the surviving inactive records. -/
def get_inheriting_views_arch (ctx : Ctx) (db : DB) (view_id : Nat)
    (model : String) : List (String × Nat) :=
  match ctx.website_id with
  | none => superGetInheritingViewsArch ctx true db view_id model
  | some _ =>
    let inheriting_views0 := superGetInheritingViewsArch ctx false db view_id model
    let inheriting_views :=
      (filter_duplicate ctx.website_id
        ((inheriting_views0.map Prod.snd).filterMap db.findView)).filter
      (fun v => v.active)
    inheriting_views.map (fun v => (v.arch, v.id))

/-! ### Well-formedness and preservation -/

/-- Well-formedness of the store: record ids are unique per table and below
`nextId`. -/
structure DB.WF (db : DB) : Prop where
  views_lt : ∀ v ∈ db.views, v.id < db.nextId
  views_nodup : (db.views.map View.id).Nodup
  pages_lt : ∀ p ∈ db.pages, p.id < db.nextId
  pages_nodup : (db.pages.map Page.id).Nodup
  menus_lt : ∀ m ∈ db.menus, m.id < db.nextId
  menus_nodup : (db.menus.map Menu.id).Nodup

theorem applyVals_id (vals : Vals) (v : View) :
    (applyVals vals v).id = v.id := rfl

theorem findView_mem {db : DB} {i : Nat} {v : View}
    (h : db.findView i = some v) : v ∈ db.views ∧ v.id = i := by
  unfold DB.findView at h
  exact ⟨List.mem_of_find?_eq_some h, by simpa using List.find?_some h⟩

theorem view_eq_of_id_eq {db : DB} (hwf : db.WF) {u v : View}
    (hu : u ∈ db.views) (hv : v ∈ db.views) (h : u.id = v.id) : u = v :=
  List.inj_on_of_nodup_map hwf.views_nodup hu hv h

theorem findView_of_mem {db : DB} (hwf : db.WF) {v : View}
    (hv : v ∈ db.views) : db.findView v.id = some v := by
  unfold DB.findView
  cases hfind : db.views.find? (fun u => u.id == v.id) with
  | none =>
    have := List.find?_eq_none.mp hfind v hv
    simp at this
  | some u =>
    have h1 : u.id = v.id := by simpa using List.find?_some hfind
    have h2 : u ∈ db.views := List.mem_of_find?_eq_some hfind
    rw [view_eq_of_id_eq hwf h2 hv h1]

/-- Invariants every operation of this layer preserves: well-formedness, a
monotone id supply, and untouched website/module/model-data tables. -/
structure Pres (db d : DB) : Prop where
  wf : d.WF
  nextId_le : db.nextId ≤ d.nextId
  websites_eq : d.websites = db.websites
  modules_eq : d.modules = db.modules
  modelData_eq : d.modelData = db.modelData
  pages_mono : ∀ p ∈ db.pages, p ∈ d.pages
  menus_mono : ∀ m ∈ db.menus, m ∈ d.menus

theorem Pres.refl_of_wf {db : DB} (h : db.WF) : Pres db db :=
  ⟨h, le_refl _, rfl, rfl, rfl, fun _ hp => hp, fun _ hm => hm⟩

theorem Pres.comp {a b c : DB} (h1 : Pres a b) (h2 : Pres b c) : Pres a c :=
  ⟨h2.wf, le_trans h1.nextId_le h2.nextId_le,
    h2.websites_eq.trans h1.websites_eq,
    h2.modules_eq.trans h1.modules_eq,
    h2.modelData_eq.trans h1.modelData_eq,
    fun p hp => h2.pages_mono p (h1.pages_mono p hp),
    fun m hm => h2.menus_mono m (h1.menus_mono m hm)⟩

theorem superWrite_map_id (ids : List Nat) (vals : Vals) (db : DB) :
    ((superWrite ids vals db).views.map View.id) = db.views.map View.id := by
  simp only [superWrite, List.map_map]
  apply List.map_congr_left
  intro v _
  by_cases h : v.id ∈ ids <;> simp [h, Function.comp, applyVals_id]

theorem superWrite_pres {ids : List Nat} {vals : Vals} {db : DB}
    (h : db.WF) : Pres db (superWrite ids vals db) := by
  refine ⟨⟨?_, ?_, h.pages_lt, h.pages_nodup, h.menus_lt, h.menus_nodup⟩,
    le_refl _, rfl, rfl, rfl, fun _ hp => hp, fun _ hm => hm⟩
  · intro v hv
    simp only [superWrite] at hv
    obtain ⟨u, hu, rfl⟩ := List.mem_map.mp hv
    by_cases hc : u.id ∈ ids <;> simp [hc, applyVals_id] <;>
      exact h.views_lt u hu
  · rw [superWrite_map_id]
    exact h.views_nodup

theorem superWrite_mem_not_in {ids : List Nat} {vals : Vals} {db : DB}
    {u : View} (hu : u ∈ db.views) (h : u.id ∉ ids) :
    u ∈ (superWrite ids vals db).views := by
  simp only [superWrite]
  have := List.mem_map_of_mem
    (fun v => if v.id ∈ ids then applyVals vals v else v) hu
  simpa [h] using this

theorem superWrite_mem_in {ids : List Nat} {vals : Vals} {db : DB}
    {u : View} (hu : u ∈ db.views) (h : u.id ∈ ids) :
    applyVals vals u ∈ (superWrite ids vals db).views := by
  simp only [superWrite]
  have := List.mem_map_of_mem
    (fun v => if v.id ∈ ids then applyVals vals v else v) hu
  simpa [h] using this

theorem copyView_pres {db : DB} {v : View} {f : View → View} (h : db.WF)
    (hf : ∀ u, (f u).id = u.id) : Pres db (db.copyView v f).2 := by
  refine ⟨⟨?_, ?_, ?_, h.pages_nodup, ?_, h.menus_nodup⟩,
    Nat.le_succ _, rfl, rfl, rfl, fun _ hp => hp, fun _ hm => hm⟩
  · intro u hu
    simp only [DB.copyView] at hu
    rcases List.mem_append.mp hu with hu | hu
    · exact lt_trans (h.views_lt u hu) (Nat.lt_succ_self _)
    · simp at hu
      rw [hu, hf]
      exact Nat.lt_succ_self _
  · simp only [DB.copyView, List.map_append, List.map_cons, List.map_nil]
    rw [List.nodup_append]
    refine ⟨h.views_nodup, List.nodup_singleton _, ?_⟩
    intro x hx
    rw [hf]
    obtain ⟨u, hu, rfl⟩ := List.mem_map.mp hx
    simp
    exact Nat.ne_of_lt (h.views_lt u hu)
  · intro p hp
    exact lt_trans (h.pages_lt p hp) (Nat.lt_succ_self _)
  · intro m hm
    exact lt_trans (h.menus_lt m hm) (Nat.lt_succ_self _)

theorem copyView_mem_old {db : DB} {v : View} {f : View → View} {u : View}
    (hu : u ∈ db.views) : u ∈ (db.copyView v f).2.views :=
  List.mem_append.mpr (Or.inl hu)

theorem copyView_mem_new {db : DB} {v : View} {f : View → View} :
    (db.copyView v f).1 ∈ (db.copyView v f).2.views :=
  List.mem_append.mpr (Or.inr (List.mem_singleton.mpr rfl))

theorem menu_cow_write_views (w a b : Nat) (db : DB) :
    (menu_cow_write w a b db).views = db.views := by
  unfold menu_cow_write
  cases db.menus.find? (fun m => m.id == a) <;> rfl

theorem menu_cow_write_pres {w a b : Nat} {db : DB} (h : db.WF) :
    Pres db (menu_cow_write w a b db) := by
  unfold menu_cow_write
  cases hf : db.menus.find? (fun m => m.id == a) with
  | none => exact Pres.refl_of_wf h
  | some m =>
    refine ⟨⟨?_, h.views_nodup, ?_, h.pages_nodup, ?_, ?_⟩,
      Nat.le_succ _, rfl, rfl, rfl, fun _ hp => hp,
      fun m' hm' => List.mem_append.mpr (Or.inl hm')⟩
    · intro u hu
      exact lt_trans (h.views_lt u hu) (Nat.lt_succ_self _)
    · intro p hp
      exact lt_trans (h.pages_lt p hp) (Nat.lt_succ_self _)
    · intro x hx
      rcases List.mem_append.mp hx with hx | hx
      · exact lt_trans (h.menus_lt x hx) (Nat.lt_succ_self _)
      · simp at hx
        rw [hx]
        exact Nat.lt_succ_self _
    · simp only [List.map_append, List.map_cons, List.map_nil]
      rw [List.nodup_append]
      refine ⟨h.menus_nodup, List.nodup_singleton _, ?_⟩
      intro x hx
      obtain ⟨u, hu, rfl⟩ := List.mem_map.mp hx
      simp
      exact Nat.ne_of_lt (h.menus_lt u hu)

theorem foldl_pres {α : Type u} {P : DB → Prop} {step : DB → α → DB}
    (h : ∀ d a, P d → P (step d a)) :
    ∀ (l : List α) (d : DB), P d → P (l.foldl step d) := by
  intro l
  induction l with
  | nil => intro d hd; exact hd
  | cons a l ih => intro d hd; exact ih _ (h d a hd)

theorem cpages_views (o n w : Nat) (db : DB) :
    (_create_website_specific_pages_for_view o n w db).views = db.views := by
  unfold _create_website_specific_pages_for_view
  refine foldl_pres (P := fun d => d.views = db.views) ?_ _ db rfl
  intro d p hd
  refine foldl_pres (P := fun d2 => d2.views = db.views) ?_ _ _ hd
  intro d2 m hd2
  rw [menu_cow_write_views]
  exact hd2

theorem cpages_pres {o n w : Nat} {db : DB} (h : db.WF) :
    Pres db (_create_website_specific_pages_for_view o n w db) := by
  unfold _create_website_specific_pages_for_view
  refine foldl_pres (P := fun d => Pres db d) ?_ _ db (Pres.refl_of_wf h)
  intro d p hd
  have hd1 : Pres d { d with
      pages := d.pages ++ [{ p with id := d.nextId, view_id := n }]
      nextId := d.nextId + 1 } := by
    refine ⟨⟨?_, hd.wf.views_nodup, ?_, ?_, ?_, hd.wf.menus_nodup⟩,
      Nat.le_succ _, rfl, rfl, rfl,
      fun p' hp' => List.mem_append.mpr (Or.inl hp'), fun _ hm => hm⟩
    · intro u hu
      exact lt_trans (hd.wf.views_lt u hu) (Nat.lt_succ_self _)
    · intro p' hp'
      rcases List.mem_append.mp hp' with hp' | hp'
      · exact lt_trans (hd.wf.pages_lt p' hp') (Nat.lt_succ_self _)
      · simp at hp'
        rw [hp']
        exact Nat.lt_succ_self _
    · simp only [List.map_append, List.map_cons, List.map_nil]
      rw [List.nodup_append]
      refine ⟨hd.wf.pages_nodup, List.nodup_singleton _, ?_⟩
      intro x hx
      obtain ⟨u, hu, rfl⟩ := List.mem_map.mp hx
      simp
      exact Nat.ne_of_lt (hd.wf.pages_lt u hu)
    · intro m hm
      exact lt_trans (hd.wf.menus_lt m hm) (Nat.lt_succ_self _)
  refine foldl_pres (P := fun d2 => Pres db d2) ?_ _ _ (hd.comp hd1)
  intro d2 m hd2
  exact hd2.comp (menu_cow_write_pres hd2.wf)

theorem theme_pres {t : String} {v : View} {db : DB} (h : db.WF) :
    Pres db (_get_theme_specific_view t v db).2 ∧
      (∀ u ∈ db.views, u ∈ (_get_theme_specific_view t v db).2.views) := by
  unfold _get_theme_specific_view
  cases db.modelData.find? (fun d => d.res_id == v.id) with
  | none => exact ⟨Pres.refl_of_wf h, fun u hu => hu⟩
  | some xd =>
    by_cases hx : xd.module = t
    · simp only [hx, if_pos]
      exact ⟨Pres.refl_of_wf h, fun u hu => hu⟩
    · simp only [hx, if_neg, not_false_iff]
      cases db.views.find? (fun u =>
          u.key == v.key &&
          u.theme_id == (db.modules.find? (fun m => m.name == t)).map
            IrModule.id) with
      | some tv => exact ⟨Pres.refl_of_wf h, fun u hu => hu⟩
      | none =>
        exact ⟨copyView_pres h (fun u => rfl), fun u hu => copyView_mem_old hu⟩

/-- The context shape under which the COW engine is guaranteed never to
mutate a generic record: bypass off, no theme-module update, and a current
website present. -/
def cowCtx (ctx : Ctx) : Prop :=
  ctx.no_cow = false ∧ hasThemeSubstring ctx.install_module = false ∧
    ctx.website_id.isSome = true

theorem write_succ (fuel : Nat) (ctx : Ctx) (ids : List Nat) (vals : Vals)
    (db : DB) :
    write (fuel+1) ctx ids vals db =
      if ctx.no_cow then superWrite ids vals db
      else
        ids.foldl
          (writeStepF (fun ctx ids vals db => write fuel ctx ids vals db)
            ctx vals) db := rfl

theorem writeStepF_pres {wr : Ctx → List Nat → Vals → DB → DB}
    (hwr : ∀ c ids vals d, DB.WF d →
      Pres d (wr c ids vals d) ∧
      (cowCtx c → ∀ v ∈ d.views, v.website_id = none →
        v ∈ (wr c ids vals d).views))
    (ctx : Ctx) (vals : Vals) (d : DB) (i : Nat) (hd : d.WF) :
    Pres d (writeStepF wr ctx vals d i) ∧
    (cowCtx ctx → ∀ v ∈ d.views, v.website_id = none →
      v ∈ (writeStepF wr ctx vals d i).views) := by
  unfold writeStepF
  cases hfv : d.findView i with
  | none => exact ⟨Pres.refl_of_wf hd, fun _ v hv _ => hv⟩
  | some view0 =>
    by_cases hth : hasThemeSubstring ctx.install_module
    · -- theme-module update: divert, drop website scope, write in place
      simp only [hth, if_pos]
      obtain ⟨hp1, hm1⟩ :=
        @theme_pres ctx.install_module view0 d hd
      refine ⟨hp1.comp (superWrite_pres hp1.wf), ?_⟩
      rintro ⟨_, hcth, _⟩
      rw [hth] at hcth
      exact absurd hcth (by simp)
    · simp only [hth, if_neg, Bool.false_eq_true, not_false_iff]
      cases hcw : ctx.website_id with
      | none =>
        refine ⟨superWrite_pres hd, ?_⟩
        rintro ⟨_, _, hcs⟩
        rw [hcw] at hcs
        exact absurd hcs (by simp)
      | some w =>
        cases hvw : view0.website_id with
        | some x =>
          refine ⟨superWrite_pres hd, ?_⟩
          intro _ v hv hvgen
          apply superWrite_mem_not_in hv
          intro hvid
          simp at hvid
          have hv0 : view0 ∈ d.views := (findView_mem hfv).1
          have := view_eq_of_id_eq hd hv hv0 hvid
          rw [this, hvw] at hvgen
          exact Option.noConfusion hvgen
        | none =>
          -- the COW fork path
          have hcopy : Pres d
              (d.copyView view0 (fun u => { u with website_id := some w })).2 :=
            copyView_pres hd (fun u => rfl)
          have hcp : Pres d (_create_website_specific_pages_for_view view0.id
              (d.copyView view0 (fun u => { u with website_id := some w })).1.id w
              (d.copyView view0 (fun u => { u with website_id := some w })).2) :=
            hcopy.comp (cpages_pres hcopy.wf)
          have hfold : ∀ dd0 : DB, Pres d dd0 →
              Pres d ((inheritChildren dd0 view0.id).foldl
                (fun dd inherit_child => wr ctx [inherit_child.id]
                  { inherit_id := some (some
                    (d.copyView view0
                      (fun u => { u with website_id := some w })).1.id) } dd)
                dd0) := by
            intro dd0 hdd0
            refine foldl_pres (P := fun dd => Pres d dd) ?_ _ _ hdd0
            intro dd c hdd
            exact hdd.comp (hwr _ _ _ _ hdd.wf).1
          refine ⟨(hfold _ hcp).comp (hwr _ _ _ _ (hfold _ hcp).wf).1, ?_⟩
          intro hc v hv hvgen
          have hcc : cowCtx ctx := hc
          -- generic records survive the copy, the page creation, the child
          -- rewrites and the final write on the fork
          have h1 : v ∈ (d.copyView view0
              (fun u => { u with website_id := some w })).2.views :=
            copyView_mem_old hv
          have h2 : v ∈ (_create_website_specific_pages_for_view view0.id
              (d.copyView view0 (fun u => { u with website_id := some w })).1.id w
              (d.copyView view0 (fun u => { u with website_id := some w })).2).views := by
            rw [cpages_views]
            exact h1
          have hfold2 : ∀ dd0 : DB, Pres d dd0 → v ∈ dd0.views →
              v ∈ ((inheritChildren dd0 view0.id).foldl
                (fun dd inherit_child => wr ctx [inherit_child.id]
                  { inherit_id := some (some
                    (d.copyView view0
                      (fun u => { u with website_id := some w })).1.id) } dd)
                dd0).views := by
            intro dd0 hdd0 hvdd0
            have hst : ∀ (dd : DB) (c : View),
                (Pres d dd ∧ v ∈ dd.views) →
                (Pres d (wr ctx [c.id]
                    { inherit_id := some (some
                      (d.copyView view0
                        (fun u => { u with website_id := some w })).1.id) } dd) ∧
                  v ∈ (wr ctx [c.id]
                    { inherit_id := some (some
                      (d.copyView view0
                        (fun u => { u with website_id := some w })).1.id) } dd).views) := by
              intro dd c hdd
              exact ⟨hdd.1.comp (hwr _ _ _ _ hdd.1.wf).1,
                (hwr _ _ _ _ hdd.1.wf).2 hcc v hdd.2 hvgen⟩
            exact (foldl_pres hst _ dd0 ⟨hdd0, hvdd0⟩).2
          have h3 := hfold2 _ hcp h2
          exact (hwr _ _ _ _ (hfold _ hcp).wf).2 hcc v h3 hvgen

/-- Master invariant of `write`: well-formedness, a monotone id supply and
the side tables are preserved at any fuel, and — without the bypass flag,
outside a theme update, under a website context — no generic view is ever
mutated or removed (COW isolation for generic records). -/
theorem write_pres (fuel : Nat) :
    ∀ (ctx : Ctx) (ids : List Nat) (vals : Vals) (db : DB), db.WF →
      Pres db (write fuel ctx ids vals db) ∧
      (cowCtx ctx → ∀ v ∈ db.views, v.website_id = none →
        v ∈ (write fuel ctx ids vals db).views) := by
  induction fuel with
  | zero =>
    intro ctx ids vals db h
    exact ⟨Pres.refl_of_wf h, fun _ v hv _ => hv⟩
  | succ fuel ih =>
    intro ctx ids vals db h
    rw [write_succ]
    by_cases hnc : ctx.no_cow
    · rw [if_pos hnc]
      refine ⟨superWrite_pres h, ?_⟩
      rintro ⟨hcnc, _, _⟩
      rw [hnc] at hcnc
      exact absurd hcnc (by simp)
    · rw [if_neg hnc]
      have hstep : ∀ (d : DB) (i : Nat),
          (Pres db d ∧ (cowCtx ctx → ∀ v ∈ db.views, v.website_id = none →
            v ∈ d.views)) →
          (Pres db (writeStepF
              (fun ctx ids vals db => write fuel ctx ids vals db)
              ctx vals d i) ∧
            (cowCtx ctx → ∀ v ∈ db.views, v.website_id = none →
              v ∈ (writeStepF
                (fun ctx ids vals db => write fuel ctx ids vals db)
                ctx vals d i).views)) := by
        intro d i hP
        obtain ⟨hPres, hGen⟩ := hP
        obtain ⟨hs1, hs2⟩ := @writeStepF_pres
          (fun ctx ids vals db => write fuel ctx ids vals db)
          (fun c ids vals dd hdd => ih c ids vals dd hdd)
          ctx vals d i hPres.wf
        refine ⟨hPres.comp hs1, ?_⟩
        intro hc v hv hvgen
        exact hs2 hc v (hGen hc v hv hvgen) hvgen
      exact foldl_pres hstep ids db
        ⟨Pres.refl_of_wf h, fun _ v hv _ => hv⟩

theorem cpages_of_no_pages {o n w : Nat} {db : DB}
    (h : ∀ p ∈ db.pages, p.view_id ≠ o) :
    _create_website_specific_pages_for_view o n w db = db := by
  unfold _create_website_specific_pages_for_view
  have : db.pages.filter (fun p => p.view_id == o) = [] := by
    refine List.filter_eq_nil_iff.mpr ?_
    intro p hp
    simpa using h p hp
  rw [this]
  rfl

theorem inheritChildren_nil {db : DB} {i : Nat}
    (h : ∀ u ∈ db.views, u.inherit_id ≠ some i) :
    inheritChildren db i = [] := by
  unfold inheritChildren
  refine List.filter_eq_nil_iff.mpr ?_
  intro u hu
  simpa using h u hu

/-- Closed form of a COW write on a generic view without inheriting children
or owned pages: the store gains exactly the website fork with `vals`
applied, and nothing else changes. -/
theorem write_cow_closed_form (fuel : Nat) (ctx : Ctx) (w : Nat)
    (vals : Vals) (db : DB) (v : View)
    (hwf : db.WF) (hnc : ctx.no_cow = false)
    (hth : hasThemeSubstring ctx.install_module = false)
    (hcw : ctx.website_id = some w)
    (hv : v ∈ db.views) (hgen : v.website_id = none)
    (hnochild : ∀ u ∈ db.views, u.inherit_id ≠ some v.id)
    (hnopage : ∀ p ∈ db.pages, p.view_id ≠ v.id) :
    write (fuel+2) ctx [v.id] vals db =
      superWrite [db.nextId] vals
        { db with
          views := db.views ++ [{ v with id := db.nextId, website_id := some w }]
          nextId := db.nextId + 1 } := by
  rw [write_succ]
  simp only [hnc, Bool.false_eq_true, if_false, List.foldl_cons, List.foldl_nil]
  unfold writeStepF
  rw [findView_of_mem hwf hv]
  simp only [hth, Bool.false_eq_true, if_false, hcw, hgen]
  rw [cpages_of_no_pages (by intro p hp; exact hnopage p hp)]
  rw [inheritChildren_nil (by
    intro u hu
    rcases List.mem_append.mp hu with hu | hu
    · exact hnochild u hu
    · simp at hu
      rw [hu]
      exact hnochild v hv)]
  simp only [List.foldl_nil]
  rw [write_succ]
  simp only [hnc, Bool.false_eq_true, if_false, List.foldl_cons, List.foldl_nil]
  unfold writeStepF
  rw [findView_of_mem
    (@copyView_pres db v (fun u => { u with website_id := some w }) hwf
      (fun u => rfl)).wf
    (@copyView_mem_new db v (fun u => { u with website_id := some w }))]
  simp only [hth, Bool.false_eq_true, if_false, hcw]
  rfl

theorem superWrite_fresh_append (vals : Vals) (db : DB) (nv : View)
    (hwf : db.WF) (hid : nv.id = db.nextId) :
    (superWrite [db.nextId] vals
      { db with views := db.views ++ [nv], nextId := db.nextId + 1 }).views =
      db.views ++ [applyVals vals nv] := by
  simp only [superWrite, List.map_append]
  congr 1
  · have : ∀ u ∈ db.views,
        (if u.id ∈ [db.nextId] then applyVals vals u else u) = u := by
      intro u hu
      rw [if_neg]
      simp
      exact Nat.ne_of_lt (hwf.views_lt u hu)
    rw [List.map_congr_left this]
    simp
  · simp [hid]

/-- C1: a `write(vals)` on a generic template under a website context (no
bypass flag, no theme update) leaves the original record unchanged — and
indeed every generic record unchanged, so any other website still reads the
previous values for the key — while a website-specific fork is created by
copy and `vals` is applied to that fork only (exact closed form when the
template has no inheriting children and no owned pages). -/
theorem C1_cow_write_isolation (fuel : Nat) (ctx : Ctx) (w : Nat)
    (vals : Vals) (db : DB) (v : View)
    (hwf : db.WF) (hnc : ctx.no_cow = false)
    (hth : hasThemeSubstring ctx.install_module = false)
    (hcw : ctx.website_id = some w)
    (hv : v ∈ db.views) (hgen : v.website_id = none) :
    ((write (fuel+2) ctx [v.id] vals db).findView v.id = some v) ∧
    (∀ u ∈ db.views, u.website_id = none →
      u ∈ (write (fuel+2) ctx [v.id] vals db).views) ∧
    ((∀ u ∈ db.views, u.inherit_id ≠ some v.id) →
     (∀ p ∈ db.pages, p.view_id ≠ v.id) →
      (write (fuel+2) ctx [v.id] vals db).views =
        db.views ++
          [applyVals vals { v with id := db.nextId, website_id := some w }]) := by
  have hcow : cowCtx ctx := ⟨hnc, hth, by rw [hcw]; rfl⟩
  obtain ⟨hpres, hgenpres⟩ := write_pres (fuel+2) ctx [v.id] vals db hwf
  refine ⟨?_, ?_, ?_⟩
  · exact findView_of_mem hpres.wf (hgenpres hcow v hv hgen)
  · exact fun u hu hug => hgenpres hcow u hu hug
  · intro hnochild hnopage
    rw [write_cow_closed_form fuel ctx w vals db v hwf hnc hth hcw hv hgen
      hnochild hnopage]
    exact superWrite_fresh_append vals db _ hwf rfl

/-- Concrete store for the C1 witness: one generic view, two websites. -/
def c1db : DB :=
  { views := [mkView 1 "page" none none none true 16], pages := [], menus := [],
    websites := [⟨5, []⟩, ⟨7, []⟩], modelData := [], modules := [], nextId := 2 }

/-- Context for the C1 witness: website 5, no theme update, no bypass. -/
def c1ctx : Ctx := ⟨some 5, "", false⟩

/-- The generic view of the C1 witness store. -/
def c1v : View := mkView 1 "page" none none none true 16

/-- The written values of the C1 witness. -/
def c1vals : Vals := { name := some "X" }

/-- Witness for C1 at a concrete store. -/
theorem C1_cow_write_isolation_witness :
    (c1db.WF ∧ c1ctx.no_cow = false ∧
     hasThemeSubstring c1ctx.install_module = false ∧
     c1ctx.website_id = some 5 ∧
     c1v ∈ c1db.views ∧ c1v.website_id = none) ∧
    (((write (0+2) c1ctx [c1v.id] c1vals c1db).findView c1v.id = some c1v) ∧
     (∀ u ∈ c1db.views, u.website_id = none →
       u ∈ (write (0+2) c1ctx [c1v.id] c1vals c1db).views) ∧
     ((∀ u ∈ c1db.views, u.inherit_id ≠ some c1v.id) →
      (∀ p ∈ c1db.pages, p.view_id ≠ c1v.id) →
       (write (0+2) c1ctx [c1v.id] c1vals c1db).views =
         c1db.views ++
           [applyVals c1vals
             { c1v with id := c1db.nextId, website_id := some 5 }])) :=
  ⟨⟨⟨by decide, by decide, by decide, by decide, by decide, by decide⟩,
    rfl, by decide, rfl, by decide, rfl⟩,
   C1_cow_write_isolation 0 c1ctx 5 c1vals c1db c1v
     ⟨by decide, by decide, by decide, by decide, by decide, by decide⟩
     rfl (by decide) rfl (by decide) rfl⟩

/-- During a theme update, `_get_theme_specific_view` creates a fork when the
view's external id belongs to another module and no `(key, theme)` fork
exists yet. -/
theorem theme_creates_fork {t : String} {v : View} {db : DB} {xd : ModelData}
    {md : IrModule}
    (hxd : db.modelData.find? (fun d => d.res_id == v.id) = some xd)
    (hxm : ¬ xd.module = t)
    (hmod : db.modules.find? (fun m => m.name == t) = some md)
    (hnofork : db.views.find?
      (fun u => u.key == v.key && u.theme_id == some md.id) = none) :
    _get_theme_specific_view t v db =
      db.copyView v (fun u => { u with theme_id := some md.id }) := by
  unfold _get_theme_specific_view
  rw [hxd, hmod]
  simp only [Option.map_some']
  rw [hnofork, if_neg hxm]

/-- During a theme update, `_get_theme_specific_view` reuses an existing
`(key, theme)` fork. -/
theorem theme_reuses_fork {t : String} {v : View} {db : DB} {xd : ModelData}
    {md : IrModule} {tv : View}
    (hxd : db.modelData.find? (fun d => d.res_id == v.id) = some xd)
    (hxm : ¬ xd.module = t)
    (hmod : db.modules.find? (fun m => m.name == t) = some md)
    (hfork : db.views.find?
      (fun u => u.key == v.key && u.theme_id == some md.id) = some tv) :
    _get_theme_specific_view t v db = (tv, db) := by
  unfold _get_theme_specific_view
  rw [hxd, hmod]
  simp only [Option.map_some']
  rw [hfork, if_neg hxm]

/-- During a theme update, `_get_theme_specific_view` leaves the view alone
when it has no external id, or when the external id belongs to the updating
theme itself. -/
theorem theme_no_divert {t : String} {v : View} {db : DB}
    (h : db.modelData.find? (fun d => d.res_id == v.id) = none ∨
      ∃ xd, db.modelData.find? (fun d => d.res_id == v.id) = some xd ∧
        xd.module = t) :
    _get_theme_specific_view t v db = (v, db) := by
  unfold _get_theme_specific_view
  rcases h with h | ⟨xd, hxd, hxm⟩
  · rw [h]
  · rw [hxd]
    simp [hxm]

/-- C10: during a theme-module update, when the written view has no external
id record, or its external id belongs to the updating theme itself, `write`
updates the view in place — no theme fork is created, and since the website
scope is dropped for the iteration, no website fork is created either, even
for a generic view under a website context. -/
theorem C10_theme_update_writes_in_place (fuel : Nat) (ctx : Ctx)
    (vals : Vals) (db : DB) (v : View)
    (hwf : db.WF) (hnc : ctx.no_cow = false)
    (hth : hasThemeSubstring ctx.install_module = true)
    (hv : v ∈ db.views)
    (hxml : db.modelData.find? (fun d => d.res_id == v.id) = none ∨
      ∃ xd, db.modelData.find? (fun d => d.res_id == v.id) = some xd ∧
        xd.module = ctx.install_module) :
    write (fuel+1) ctx [v.id] vals db = superWrite [v.id] vals db := by
  rw [write_succ]
  simp only [hnc, Bool.false_eq_true, if_false, List.foldl_cons, List.foldl_nil]
  unfold writeStepF
  rw [findView_of_mem hwf hv]
  simp only [hth, if_pos]
  rw [theme_no_divert hxml]

/-- Concrete store for the C10 witness: one generic view whose external id
belongs to the updating theme itself. -/
def c10db : DB :=
  { views := [mkView 1 "page" none none none true 16], pages := [], menus := [],
    websites := [⟨5, []⟩], modelData := [⟨"theme_alpha", "v1", 1⟩],
    modules := [⟨9, "theme_alpha"⟩], nextId := 2 }

/-- Context for the C10 witness: website 5 present, theme_alpha updating. -/
def c10ctx : Ctx := ⟨some 5, "theme_alpha", false⟩

/-- Witness for C10 at a concrete store. -/
theorem C10_theme_update_writes_in_place_witness :
    (c10db.WF ∧ c10ctx.no_cow = false ∧
     hasThemeSubstring c10ctx.install_module = true ∧
     c1v ∈ c10db.views ∧
     (c10db.modelData.find? (fun d => d.res_id == c1v.id) = none ∨
      ∃ xd, c10db.modelData.find? (fun d => d.res_id == c1v.id) = some xd ∧
        xd.module = c10ctx.install_module)) ∧
    write (0+1) c10ctx [c1v.id] c1vals c10db =
      superWrite [c1v.id] c1vals c10db :=
  ⟨⟨⟨by decide, by decide, by decide, by decide, by decide, by decide⟩,
    rfl, by decide, by decide,
    Or.inr ⟨⟨"theme_alpha", "v1", 1⟩, by decide, rfl⟩⟩,
   C10_theme_update_writes_in_place 0 c10ctx c1vals c10db c1v
     ⟨by decide, by decide, by decide, by decide, by decide, by decide⟩
     rfl (by decide) (by decide)
     (Or.inr ⟨⟨"theme_alpha", "v1", 1⟩, by decide, rfl⟩)⟩

theorem superWrite_length (ids : List Nat) (vals : Vals) (db : DB) :
    (superWrite ids vals db).views.length = db.views.length := by
  simp [superWrite]

/-- Writing `vals` at the fresh id on a store that just appended a fresh
record updates exactly that record. -/
theorem superWrite_copy_eq (vals : Vals) (db : DB) (v : View)
    (f : View → View) (hwf : db.WF) (hf : ∀ u, (f u).id = u.id) :
    superWrite [db.nextId] vals (db.copyView v f).2 =
      { db with
        views := db.views ++ [applyVals vals (f { v with id := db.nextId })]
        nextId := db.nextId + 1 } := by
  unfold superWrite DB.copyView
  congr 1
  simp only [List.map_append]
  congr 1
  · have : ∀ u ∈ db.views,
        (if u.id ∈ [db.nextId] then applyVals vals u else u) = u := by
      intro u hu
      rw [if_neg]
      simp
      exact Nat.ne_of_lt (hwf.views_lt u hu)
    rw [List.map_congr_left this]
    simp
  · simp [hf]

/-- C5: specializing the same view twice for the same theme during a theme
module update is idempotent — the second write finds the fork created by the
first and diverts the update to it in place, so exactly one `(key, theme)`
record exists after both calls and no further record is created. -/
theorem C5_theme_fork_idempotent (fuel : Nat) (ctx : Ctx) (vals : Vals)
    (db : DB) (v : View) (xd : ModelData) (md : IrModule)
    (hwf : db.WF) (hnc : ctx.no_cow = false)
    (hth : hasThemeSubstring ctx.install_module = true)
    (hv : v ∈ db.views)
    (hxd : db.modelData.find? (fun d => d.res_id == v.id) = some xd)
    (hxm : ¬ xd.module = ctx.install_module)
    (hmod : db.modules.find? (fun m => m.name == ctx.install_module) = some md)
    (hnofork : db.views.find?
      (fun u => u.key == v.key && u.theme_id == some md.id) = none)
    (hvk : vals.key = none) (hvt : vals.theme_id = none) :
    write (fuel+1) ctx [v.id] vals (write (fuel+1) ctx [v.id] vals db) =
      superWrite [db.nextId] vals (write (fuel+1) ctx [v.id] vals db) ∧
    (write (fuel+1) ctx [v.id] vals
        (write (fuel+1) ctx [v.id] vals db)).views.length =
      (write (fuel+1) ctx [v.id] vals db).views.length ∧
    ((write (fuel+1) ctx [v.id] vals
        (write (fuel+1) ctx [v.id] vals db)).views.filter
      (fun u => u.key == v.key && u.theme_id == some md.id)).length = 1 := by
  have h1 : write (fuel+1) ctx [v.id] vals db =
      superWrite [db.nextId] vals
        (db.copyView v (fun u => { u with theme_id := some md.id })).2 := by
    rw [write_succ]
    simp only [hnc, Bool.false_eq_true, if_false, List.foldl_cons,
      List.foldl_nil]
    unfold writeStepF
    rw [findView_of_mem hwf hv]
    simp only [hth, if_pos]
    rw [theme_creates_fork hxd hxm hmod hnofork]
    rfl
  have hdb1 : write (fuel+1) ctx [v.id] vals db =
      { db with
        views := db.views ++
          [applyVals vals { v with id := db.nextId, theme_id := some md.id }]
        nextId := db.nextId + 1 } := by
    rw [h1]
    exact superWrite_copy_eq vals db v _ hwf (fun u => rfl)
  have hwf1 : (write (fuel+1) ctx [v.id] vals db).WF :=
    (write_pres (fuel+1) ctx [v.id] vals db hwf).1.wf
  have hv1 : v ∈ (write (fuel+1) ctx [v.id] vals db).views := by
    rw [hdb1]
    exact List.mem_append.mpr (Or.inl hv)
  have hfind1 : (write (fuel+1) ctx [v.id] vals db).findView v.id = some v :=
    findView_of_mem hwf1 hv1
  have hxd1 : (write (fuel+1) ctx [v.id] vals db).modelData.find?
      (fun d => d.res_id == v.id) = some xd := by
    rw [(write_pres (fuel+1) ctx [v.id] vals db hwf).1.modelData_eq]
    exact hxd
  have hmod1 : (write (fuel+1) ctx [v.id] vals db).modules.find?
      (fun m => m.name == ctx.install_module) = some md := by
    rw [(write_pres (fuel+1) ctx [v.id] vals db hwf).1.modules_eq]
    exact hmod
  have hfork1 : (write (fuel+1) ctx [v.id] vals db).views.find?
      (fun u => u.key == v.key && u.theme_id == some md.id) =
        some (applyVals vals
          { v with id := db.nextId, theme_id := some md.id }) := by
    rw [hdb1]
    show (db.views ++ _).find? _ = _
    rw [List.find?_append, hnofork]
    simp [applyVals, hvk, hvt]
  have h2 : write (fuel+1) ctx [v.id] vals
      (write (fuel+1) ctx [v.id] vals db) =
        superWrite [db.nextId] vals (write (fuel+1) ctx [v.id] vals db) := by
    conv_lhs => rw [write_succ]
    simp only [hnc, Bool.false_eq_true, if_false, List.foldl_cons,
      List.foldl_nil]
    unfold writeStepF
    rw [hfind1]
    simp only [hth, if_pos]
    rw [theme_reuses_fork hxd1 hxm hmod1 hfork1]
    rfl
  refine ⟨h2, ?_, ?_⟩
  · rw [h2]
    exact superWrite_length _ _ _
  · have hviews2 : (write (fuel+1) ctx [v.id] vals
        (write (fuel+1) ctx [v.id] vals db)).views =
          db.views ++ [applyVals vals (applyVals vals
            { v with id := db.nextId, theme_id := some md.id })] := by
      rw [h2, hdb1]
      exact superWrite_fresh_append vals db _ hwf rfl
    rw [hviews2, List.filter_append]
    have hnil : db.views.filter
        (fun u => u.key == v.key && u.theme_id == some md.id) = [] := by
      refine List.filter_eq_nil_iff.mpr ?_
      intro u hu
      have := List.find?_eq_none.mp hnofork u hu
      simpa using this
    rw [hnil]
    simp [applyVals, hvk, hvt]

/-- Concrete store for the C5 witness: one generic view whose external id
belongs to module `base`, while `theme_alpha` is updating. -/
def c5db : DB :=
  { views := [mkView 1 "k" none none none true 16], pages := [], menus := [],
    websites := [⟨5, []⟩], modelData := [⟨"base", "v1", 1⟩],
    modules := [⟨9, "theme_alpha"⟩], nextId := 2 }

/-- Context for the C5 witness: theme_alpha module update. -/
def c5ctx : Ctx := ⟨none, "theme_alpha", false⟩

/-- The generic view of the C5 witness store. -/
def c5v : View := mkView 1 "k" none none none true 16

/-- Witness for C5 at a concrete store. -/
theorem C5_theme_fork_idempotent_witness :
    (c5db.WF ∧ c5ctx.no_cow = false ∧
     hasThemeSubstring c5ctx.install_module = true ∧
     c5v ∈ c5db.views ∧
     c5db.modelData.find? (fun d => d.res_id == c5v.id) = some ⟨"base", "v1", 1⟩ ∧
     ¬ (⟨"base", "v1", 1⟩ : ModelData).module = c5ctx.install_module ∧
     c5db.modules.find? (fun m => m.name == c5ctx.install_module) =
       some ⟨9, "theme_alpha"⟩ ∧
     c5db.views.find? (fun u => u.key == c5v.key &&
       u.theme_id == some (⟨9, "theme_alpha"⟩ : IrModule).id) = none ∧
     c1vals.key = none ∧ c1vals.theme_id = none) ∧
    (write (0+1) c5ctx [c5v.id] c1vals (write (0+1) c5ctx [c5v.id] c1vals c5db) =
       superWrite [c5db.nextId] c1vals
         (write (0+1) c5ctx [c5v.id] c1vals c5db) ∧
     (write (0+1) c5ctx [c5v.id] c1vals
        (write (0+1) c5ctx [c5v.id] c1vals c5db)).views.length =
       (write (0+1) c5ctx [c5v.id] c1vals c5db).views.length ∧
     ((write (0+1) c5ctx [c5v.id] c1vals
        (write (0+1) c5ctx [c5v.id] c1vals c5db)).views.filter
       (fun u => u.key == c5v.key &&
         u.theme_id == some (⟨9, "theme_alpha"⟩ : IrModule).id)).length = 1) :=
  ⟨⟨⟨by decide, by decide, by decide, by decide, by decide, by decide⟩,
    rfl, by decide, by decide, by decide, by decide, by decide, by decide,
    rfl, rfl⟩,
   C5_theme_fork_idempotent 0 c5ctx c1vals c5db c5v ⟨"base", "v1", 1⟩
     ⟨9, "theme_alpha"⟩
     ⟨by decide, by decide, by decide, by decide, by decide, by decide⟩
     rfl (by decide) (by decide) (by decide) (by decide) (by decide)
     (by decide) rfl rfl⟩

theorem sortHead_mem {r : View → View → Prop} [DecidableRel r]
    {l : List View} {x : View}
    (h : (List.insertionSort r l).head? = some x) : x ∈ l := by
  have hperm := List.perm_insertionSort r l
  cases hsort : List.insertionSort r l with
  | nil => rw [hsort] at h; simp at h
  | cons a t =>
    rw [hsort] at h hperm
    simp only [List.head?] at h
    have hax : a = x := Option.some.inj h
    exact hperm.subset (hax ▸ List.mem_cons_self a t)

theorem sortHead_none {r : View → View → Prop} [DecidableRel r]
    {l : List View} (h : (List.insertionSort r l).head? = none) : l = [] := by
  have hperm := List.perm_insertionSort r l
  cases hsort : List.insertionSort r l with
  | nil => rw [hsort] at hperm; exact hperm.symm.eq_nil
  | cons a t => rw [hsort] at h; simp at h

theorem sortHead_min {r : View → View → Prop} [DecidableRel r]
    [IsTotal View r] [IsTrans View r] (hrefl : ∀ a, r a a)
    {l : List View} {x : View}
    (h : (List.insertionSort r l).head? = some x) : ∀ y ∈ l, r x y := by
  intro y hy
  have hperm := List.perm_insertionSort r l
  have hsorted := List.sorted_insertionSort r l
  cases hsort : List.insertionSort r l with
  | nil => rw [hsort] at h; simp at h
  | cons a t =>
    rw [hsort] at h hperm hsorted
    simp only [List.head?] at h
    have hax : a = x := Option.some.inj h
    subst hax
    have hy' : y ∈ a :: t := hperm.symm.subset hy
    rcases List.mem_cons.mp hy' with hy' | hy'
    · rw [hy']; exact hrefl _
    · exact List.rel_of_sorted_cons hsorted y hy'

theorem websiteOrderLe_refl (a : View) : websiteOrderLe a a := pairLe_refl _

/-- Under a website context, a key lookup fails exactly when nothing
matches its search domain. -/
theorem get_view_id_key_error {ctx : Ctx} {db : DB} {wid : Nat} {s : String}
    (hcw : ctx.website_id = some wid)
    (h : ∀ v ∈ db.views, getViewIdDomain (themesOf db wid) wid s v = false) :
    get_view_id ctx db (.key s) = .error s := by
  simp only [get_view_id, hcw]
  have hfil : db.views.filter (getViewIdDomain (themesOf db wid) wid s) = [] := by
    refine List.filter_eq_nil_iff.mpr ?_
    intro v hv
    simp [h v hv]
  rw [hfil]
  rfl

/-- Under a website context, a key lookup with at least one match returns
the id of a matching record minimal in the `website_id` search order. -/
theorem get_view_id_key_ok {ctx : Ctx} {db : DB} {wid : Nat} {s : String}
    (hcw : ctx.website_id = some wid)
    (hne : ∃ v ∈ db.views, getViewIdDomain (themesOf db wid) wid s v = true) :
    ∃ u ∈ db.views, getViewIdDomain (themesOf db wid) wid s u = true ∧
      get_view_id ctx db (.key s) = .ok u.id ∧
      ∀ x ∈ db.views, getViewIdDomain (themesOf db wid) wid s x = true →
        websiteOrderLe u x := by
  simp only [get_view_id, hcw]
  obtain ⟨v, hv, hdom⟩ := hne
  have hvf : v ∈ db.views.filter (getViewIdDomain (themesOf db wid) wid s) :=
    List.mem_filter.mpr ⟨hv, hdom⟩
  cases hhead : (List.insertionSort websiteOrderLe
      (db.views.filter (getViewIdDomain (themesOf db wid) wid s))).head? with
  | none =>
    rw [sortHead_none hhead] at hvf
    simp at hvf
  | some u =>
    have hu := List.mem_filter.mp (sortHead_mem hhead)
    refine ⟨u, hu.1, hu.2, rfl, ?_⟩
    intro x hx hxdom
    exact sortHead_min websiteOrderLe_refl hhead x
      (List.mem_filter.mpr ⟨hx, hxdom⟩)

/-- C6: `get_view_id` returns a numeric id as-is; under a website context a
string key is resolved against the key-AND-(theme OR theme-unscoped
website) domain ordered by `website_id`, yielding the id of a minimal
matching record, and it fails with an error exactly when no record matches
that domain. -/
theorem C6_get_view_id_resolution (ctx : Ctx) (db : DB) :
    (∀ n : Nat, get_view_id ctx db (.id n) = .ok n) ∧
    (∀ (wid : Nat) (s : String), ctx.website_id = some wid →
      ((get_view_id ctx db (.key s) = .error s) ↔
        ∀ v ∈ db.views, getViewIdDomain (themesOf db wid) wid s v = false) ∧
      ((∃ v ∈ db.views, getViewIdDomain (themesOf db wid) wid s v = true) →
        ∃ u ∈ db.views, getViewIdDomain (themesOf db wid) wid s u = true ∧
          get_view_id ctx db (.key s) = .ok u.id ∧
          ∀ x ∈ db.views, getViewIdDomain (themesOf db wid) wid s x = true →
            websiteOrderLe u x)) := by
  constructor
  · intro n
    cases hw : ctx.website_id <;> simp [get_view_id, hw, superGetViewId]
  · intro wid s hcw
    refine ⟨⟨?_, fun h => get_view_id_key_error hcw h⟩,
      fun h => get_view_id_key_ok hcw h⟩
    intro herr
    intro v hv
    by_contra hdom
    have hdom' : getViewIdDomain (themesOf db wid) wid s v = true := by
      revert hdom
      cases getViewIdDomain (themesOf db wid) wid s v <;> simp
    obtain ⟨u, _, _, hok, _⟩ := get_view_id_key_ok hcw ⟨v, hv, hdom'⟩
    rw [hok] at herr
    exact Except.noConfusion herr

/-- Concrete store for the C6 witness. -/
def c6db : DB :=
  { views := [mkView 1 "k" none none none true 16], pages := [], menus := [],
    websites := [⟨2, []⟩], modelData := [], modules := [], nextId := 10 }

/-- Context for the C6 witness: website 2. -/
def c6ctx : Ctx := ⟨some 2, "", false⟩

/-- Witness for C6 at a concrete store: id pass-through, error iff no match,
and successful minimal resolution for an existing key. -/
theorem C6_get_view_id_resolution_witness :
    (c6ctx.website_id = some 2 ∧
     (∃ v ∈ c6db.views, getViewIdDomain (themesOf c6db 2) 2 "k" v = true)) ∧
    (get_view_id c6ctx c6db (.id 7) = .ok 7 ∧
     ((get_view_id c6ctx c6db (.key "nope") = .error "nope") ↔
       ∀ v ∈ c6db.views,
         getViewIdDomain (themesOf c6db 2) 2 "nope" v = false) ∧
     (∃ u ∈ c6db.views, getViewIdDomain (themesOf c6db 2) 2 "k" u = true ∧
       get_view_id c6ctx c6db (.key "k") = .ok u.id ∧
       ∀ x ∈ c6db.views, getViewIdDomain (themesOf c6db 2) 2 "k" x = true →
         websiteOrderLe u x)) :=
  ⟨⟨rfl, ⟨mkView 1 "k" none none none true 16, by decide, by decide⟩⟩,
   (C6_get_view_id_resolution c6ctx c6db).1 7,
   ((C6_get_view_id_resolution c6ctx c6db).2 2 "nope" rfl).1,
   ((C6_get_view_id_resolution c6ctx c6db).2 2 "k" rfl).2
     ⟨mkView 1 "k" none none none true 16, by decide, by decide⟩⟩

/-- C4: when the inheriting views of a base template are exactly an inactive
fork specific to the current website and an active generic view with the
same key, inheritance-arch resolution under that website yields zero
entries: the resolution runs with active-filtering disabled, the inactive
specific fork wins the duplicate-collapse over the active generic one, and
it is then dropped for being inactive instead of falling back to the
generic view. -/
theorem C4_inactive_specific_beats_active_generic (ctx : Ctx) (db : DB)
    (base w : Nat) (model : String) (u1 u2 : View)
    (hwf : db.WF)
    (hcw : ctx.website_id = some w) (h0 : 0 < w)
    (hthemes :
      ((db.websites.find? (fun ws => ws.id == w)).map Website.theme_ids).getD []
        = [])
    (hfilter : db.views.filter (fun v => v.inherit_id == some base) = [u1, u2])
    (hk : u1.key = u2.key)
    (hw1 : u1.website_id = some w) (ha1 : u1.active = false)
    (hw2 : u2.website_id = none) (ha2 : u2.active = true) :
    get_inheriting_views_arch ctx db base model = [] := by
  have hu1m : u1 ∈ db.views := by
    have : u1 ∈ db.views.filter (fun v => v.inherit_id == some base) := by
      rw [hfilter]; simp
    exact (List.mem_filter.mp this).1
  have hu2m : u2 ∈ db.views := by
    have : u2 ∈ db.views.filter (fun v => v.inherit_id == some base) := by
      rw [hfilter]; simp
    exact (List.mem_filter.mp this).1
  -- the searched candidate set is exactly {u1, u2}
  have hdomfil : db.views.filter
      (fun v => _get_inheriting_views_arch_domain ctx db base model v &&
        (!false || v.active)) =
      db.views.filter (fun v =>
        websiteDomain (some w) v && (v.inherit_id == some base)) := by
    apply List.filter_congr
    intro v _
    simp only [_get_inheriting_views_arch_domain, hcw, superInheritingDomain,
      leafMentionsActive, leafSem, hthemes]
    simp [Bool.and_assoc]
  have hfil2 : db.views.filter (fun v =>
      websiteDomain (some w) v && (v.inherit_id == some base)) = [u1, u2] := by
    rw [← List.filter_filter, hfilter]
    simp [websiteDomain, hw1, hw2]
  -- duplicate collapse keeps only the inactive website-specific fork
  have hwin : ∀ l : List View, (l = [u1, u2] ∨ l = [u2, u1]) →
      ((filter_duplicate (some w) l).filter (fun v => v.active)) = [] := by
    intro l hl
    refine List.filter_eq_nil_iff.mpr ?_
    intro r hr
    obtain ⟨hrmem, hrmin⟩ := fd_mem_and_min (some w) l r hr
    have hru : r = u1 ∨ r = u2 := by
      rcases hl with hl | hl <;> rw [hl] at hrmem <;> simp at hrmem <;> tauto
    have hr1 : r = u1 := by
      rcases hru with h | h
      · exact h
      · exfalso
        have hu1l : u1 ∈ l := by
          rcases hl with hl | hl <;> rw [hl] <;> simp
        have := hrmin u1 hu1l (by rw [h, hk])
        rw [h] at this
        unfold suitLe at this
        rw [sKey_generic w h0 u2 hw2, sKey_matching w u1 hw1] at this
        rcases this with h' | ⟨h', _⟩
        · exact absurd h' (by simp)
        · exact absurd h' (by simp)
    rw [hr1, ha1]
    simp
  -- assemble
  simp only [get_inheriting_views_arch, hcw, superGetInheritingViewsArch]
  rw [hdomfil, hfil2]
  by_cases hord : defaultOrderLe u1 u2
  · simp only [List.insertionSort, List.orderedInsert, if_pos hord]
    simp only [List.map_cons, List.map_nil, List.filterMap_cons,
      findView_of_mem hwf hu1m, findView_of_mem hwf hu2m, List.filterMap_nil]
    rw [hwin [u1, u2] (Or.inl rfl)]
    rfl
  · simp only [List.insertionSort, List.orderedInsert, if_neg hord]
    simp only [List.map_cons, List.map_nil, List.filterMap_cons,
      findView_of_mem hwf hu1m, findView_of_mem hwf hu2m, List.filterMap_nil]
    rw [hwin [u2, u1] (Or.inr rfl)]
    rfl

/-- Concrete store for the C4 witness: a base view, an inactive website-1
fork and an active generic view sharing key "k", both inheriting the base. -/
def c4db : DB :=
  { views := [mkView 1 "base" none none none true 16,
              mkView 2 "k" (some 1) none (some 1) false 16,
              mkView 3 "k" none none (some 1) true 16],
    pages := [], menus := [],
    websites := [⟨1, []⟩, ⟨2, []⟩], modelData := [], modules := [],
    nextId := 10 }

/-- Context for the C4 witness: website 1. -/
def c4ctx : Ctx := ⟨some 1, "", false⟩

/-- Witness for C4 at a concrete store. -/
theorem C4_inactive_specific_beats_active_generic_witness :
    (c4db.WF ∧ c4ctx.website_id = some 1 ∧ 0 < 1 ∧
     ((c4db.websites.find? (fun ws => ws.id == 1)).map
        Website.theme_ids).getD [] = [] ∧
     c4db.views.filter (fun v => v.inherit_id == some 1) =
       [mkView 2 "k" (some 1) none (some 1) false 16,
        mkView 3 "k" none none (some 1) true 16] ∧
     (mkView 2 "k" (some 1) none (some 1) false 16).key =
       (mkView 3 "k" none none (some 1) true 16).key ∧
     (mkView 2 "k" (some 1) none (some 1) false 16).website_id = some 1 ∧
     (mkView 2 "k" (some 1) none (some 1) false 16).active = false ∧
     (mkView 3 "k" none none (some 1) true 16).website_id = none ∧
     (mkView 3 "k" none none (some 1) true 16).active = true) ∧
    get_inheriting_views_arch c4ctx c4db 1 "m" = [] :=
  ⟨⟨⟨by decide, by decide, by decide, by decide, by decide, by decide⟩,
    rfl, Nat.one_pos, by decide, by decide, rfl, rfl, rfl, rfl, rfl⟩,
   C4_inactive_specific_beats_active_generic c4ctx c4db 1 1 "m"
     (mkView 2 "k" (some 1) none (some 1) false 16)
     (mkView 3 "k" none none (some 1) true 16)
     ⟨by decide, by decide, by decide, by decide, by decide, by decide⟩
     rfl Nat.one_pos (by decide) (by decide) rfl rfl rfl rfl rfl⟩

/-- C8: `_view_obj` returns a pre-resolved view argument unchanged; an
integer is resolved by browsing that id; a string key is resolved by a
domain search followed by duplicate collapsing — every record of the result
comes from the store, carries the requested key and is active — falling
back to the external-reference lookup when the search yields nothing. -/
theorem C8_view_obj_dispatch (ctx : Ctx) (db : DB) :
    (∀ vs : List View, _view_obj ctx db (.obj vs) = .ok vs) ∧
    (∀ n : Nat, _view_obj ctx db (.intg n) =
      .ok (db.views.filter (fun v => v.id == n))) ∧
    (∀ s : String,
      ((∃ v ∈ db.views, viewObjDomain ctx.website_id s v = true) →
        ∃ l, _view_obj ctx db (.str s) = .ok l ∧ l ≠ [] ∧
          ∀ u ∈ l, u ∈ db.views ∧ u.key = s ∧ u.active = true) ∧
      ((∀ v ∈ db.views, viewObjDomain ctx.website_id s v = false) →
        _view_obj ctx db (.str s) = envRef db s)) := by
  refine ⟨fun vs => rfl, fun n => rfl, ?_⟩
  intro s
  have hdomkey : ∀ v : View, viewObjDomain ctx.website_id s v = true →
      v.key = s ∧ v.active = true := by
    intro v hd
    cases hc : ctx.website_id <;> rw [hc] at hd <;>
      simp only [viewObjDomain, Bool.and_eq_true, beq_iff_eq] at hd
    · exact hd
    · exact ⟨hd.1.1, hd.2⟩
  cases hw : ctx.website_id with
  | none =>
    simp only [_view_obj, hw, Option.isSome_none, Bool.false_eq_true,
      if_false]
    constructor
    · rintro ⟨v, hv, hdom⟩
      have hvf : v ∈ db.views.filter (viewObjDomain none s) :=
        List.mem_filter.mpr ⟨hv, hw ▸ hdom⟩
      have hvs : v ∈ List.insertionSort defaultOrderLe
          (db.views.filter (viewObjDomain none s)) :=
        (List.perm_insertionSort defaultOrderLe _).symm.subset hvf
      rw [if_pos (List.ne_nil_of_mem hvs)]
      refine ⟨_, rfl, ?_, ?_⟩
      · obtain ⟨r, hr, _⟩ := (fd_keys_iff none _ s).mpr
          ⟨v, hvs, (hdomkey v (hw ▸ hdom)).1⟩
        exact List.ne_nil_of_mem hr
      · intro u hu
        have hum := (fd_mem_and_min none _ u hu).1
        have hmf := List.mem_filter.mp
          ((List.perm_insertionSort defaultOrderLe _).subset hum)
        exact ⟨hmf.1, (hdomkey u (hw ▸ hmf.2)).1, (hdomkey u (hw ▸ hmf.2)).2⟩
    · intro hno
      rw [if_neg]
      simp only [ne_eq, not_not]
      have hfil : db.views.filter (viewObjDomain none s) = [] := by
        refine List.filter_eq_nil_iff.mpr ?_
        intro v hv
        simp only [hno v hv]
        simp
      rw [hfil]
      rfl
  | some w =>
    simp only [_view_obj, hw, Option.isSome_some, if_true]
    constructor
    · rintro ⟨v, hv, hdom⟩
      have hvf : v ∈ db.views.filter (viewObjDomain (some w) s) :=
        List.mem_filter.mpr ⟨hv, hw ▸ hdom⟩
      have hvs : v ∈ List.insertionSort websiteOrderLe
          (db.views.filter (viewObjDomain (some w) s)) :=
        (List.perm_insertionSort websiteOrderLe _).symm.subset hvf
      rw [if_pos (List.ne_nil_of_mem hvs)]
      refine ⟨_, rfl, ?_, ?_⟩
      · obtain ⟨r, hr, _⟩ := (fd_keys_iff (some w) _ s).mpr
          ⟨v, hvs, (hdomkey v (hw ▸ hdom)).1⟩
        exact List.ne_nil_of_mem hr
      · intro u hu
        have hum := (fd_mem_and_min (some w) _ u hu).1
        have hmf := List.mem_filter.mp
          ((List.perm_insertionSort websiteOrderLe _).subset hum)
        exact ⟨hmf.1, (hdomkey u (hw ▸ hmf.2)).1, (hdomkey u (hw ▸ hmf.2)).2⟩
    · intro hno
      rw [if_neg]
      simp only [ne_eq, not_not]
      have hfil : db.views.filter (viewObjDomain (some w) s) = [] := by
        refine List.filter_eq_nil_iff.mpr ?_
        intro v hv
        simp only [hno v hv]
        simp
      rw [hfil]
      rfl


/-- Witness for C8 at a concrete store: pass-through, browse, matched
search, and external fallback. -/
theorem C8_view_obj_dispatch_witness :
    ((∃ v ∈ c6db.views, viewObjDomain c6ctx.website_id "k" v = true) ∧
     (∀ v ∈ c6db.views, viewObjDomain c6ctx.website_id "zzz" v = false)) ∧
    (_view_obj c6ctx c6db (.obj [c5v]) = .ok [c5v] ∧
     _view_obj c6ctx c6db (.intg 3) =
       .ok (c6db.views.filter (fun v => v.id == 3)) ∧
     (∃ l, _view_obj c6ctx c6db (.str "k") = .ok l ∧ l ≠ [] ∧
       ∀ u ∈ l, u ∈ c6db.views ∧ u.key = "k" ∧ u.active = true) ∧
     _view_obj c6ctx c6db (.str "zzz") = envRef c6db "zzz") :=
  ⟨⟨⟨mkView 1 "k" none none none true 16, by decide, by decide⟩, by decide⟩,
   (C8_view_obj_dispatch c6ctx c6db).1 [c5v],
   (C8_view_obj_dispatch c6ctx c6db).2.1 3,
   ((C8_view_obj_dispatch c6ctx c6db).2.2 "k").1
     ⟨mkView 1 "k" none none none true 16, by decide, by decide⟩,
   ((C8_view_obj_dispatch c6ctx c6db).2.2 "zzz").2 (by decide)⟩

theorem menu_eq_of_id_eq {db : DB} (hwf : db.WF) {u m : Menu}
    (hu : u ∈ db.menus) (hm : m ∈ db.menus) (h : u.id = m.id) : u = m :=
  List.inj_on_of_nodup_map hwf.menus_nodup hu hm h

theorem findMenu_of_mem {db : DB} (hwf : db.WF) {m : Menu}
    (hm : m ∈ db.menus) :
    db.menus.find? (fun x => x.id == m.id) = some m := by
  cases hfind : db.menus.find? (fun x => x.id == m.id) with
  | none =>
    have := List.find?_eq_none.mp hfind m hm
    simp at this
  | some u =>
    have h1 : u.id = m.id := by simpa using List.find?_some hfind
    have h2 : u ∈ db.menus := List.mem_of_find?_eq_some hfind
    rw [menu_eq_of_id_eq hwf h2 hm h1]

theorem menu_cow_write_of_mem {w pid : Nat} {db : DB} (hwf : db.WF)
    {m : Menu} (hm : m ∈ db.menus) :
    menu_cow_write w m.id pid db =
      { db with
        menus := db.menus ++
          [{ m with id := db.nextId, page_id := pid, website_id := some w }]
        nextId := db.nextId + 1 } := by
  unfold menu_cow_write
  rw [findMenu_of_mem hwf hm]

/-- The menu-rewriting loop of `_create_website_specific_pages_for_view`
creates, for every menu of the original page, a copy pointing at the new
page, scoped to the target website, under a fresh id — and preserves the
store invariants. -/
theorem menuLoop_spec (w pid : Nat) :
    ∀ (ms : List Menu) (d : DB), d.WF → (∀ m ∈ ms, m ∈ d.menus) →
      Pres d (ms.foldl (fun d2 m => menu_cow_write w m.id pid d2) d) ∧
      ∀ m ∈ ms,
        ∃ m' ∈ (ms.foldl (fun d2 m => menu_cow_write w m.id pid d2) d).menus,
          m'.name = m.name ∧ m'.page_id = pid ∧ m'.website_id = some w ∧
            d.nextId ≤ m'.id := by
  intro ms
  induction ms with
  | nil =>
    intro d hwf _
    exact ⟨Pres.refl_of_wf hwf, by simp⟩
  | cons m ms ih =>
    intro d hwf hmem
    have hm : m ∈ d.menus := hmem m (List.mem_cons_self _ _)
    have hstep := @menu_cow_write_of_mem w pid d hwf m hm
    have hd1wf : (menu_cow_write w m.id pid d).WF :=
      (menu_cow_write_pres hwf).wf
    have hd1pres : Pres d (menu_cow_write w m.id pid d) :=
      menu_cow_write_pres hwf
    have hrest := ih (menu_cow_write w m.id pid d) hd1wf
      (fun x hx => hd1pres.menus_mono x (hmem x (List.mem_cons_of_mem _ hx)))
    simp only [List.foldl_cons]
    refine ⟨hd1pres.comp hrest.1, ?_⟩
    intro x hx
    rcases List.mem_cons.mp hx with hx | hx
    · subst hx
      refine ⟨{ x with id := d.nextId, page_id := pid, website_id := some w },
        ?_, rfl, rfl, rfl, le_refl _⟩
      apply hrest.1.menus_mono
      rw [hstep]
      simp
    · obtain ⟨m', hm', hn, hp, hw', hle⟩ := hrest.2 x hx
      exact ⟨m', hm', hn, hp, hw',
        le_trans hd1pres.nextId_le hle⟩

theorem pageAppend_pres (d : DB) (p : Page) (n : Nat) (hwf : d.WF) :
    Pres d { d with
      pages := d.pages ++ [{ p with id := d.nextId, view_id := n }]
      nextId := d.nextId + 1 } := by
  refine ⟨⟨?_, hwf.views_nodup, ?_, ?_, ?_, hwf.menus_nodup⟩,
    Nat.le_succ _, rfl, rfl, rfl,
    fun p' hp' => List.mem_append.mpr (Or.inl hp'), fun _ hm => hm⟩
  · intro u hu
    exact lt_trans (hwf.views_lt u hu) (Nat.lt_succ_self _)
  · intro p' hp'
    rcases List.mem_append.mp hp' with hp' | hp'
    · exact lt_trans (hwf.pages_lt p' hp') (Nat.lt_succ_self _)
    · simp at hp'
      rw [hp']
      exact Nat.lt_succ_self _
  · simp only [List.map_append, List.map_cons, List.map_nil]
    rw [List.nodup_append]
    refine ⟨hwf.pages_nodup, List.nodup_singleton _, ?_⟩
    intro x hx
    obtain ⟨u, hu, rfl⟩ := List.mem_map.mp hx
    simp
    exact Nat.ne_of_lt (hwf.pages_lt u hu)
  · intro m hm
    exact lt_trans (hwf.menus_lt m hm) (Nat.lt_succ_self _)

/-- The page-copy loop of `_create_website_specific_pages_for_view`: every
page of the iterated list is copied (same name) onto the new view under a
fresh id, and every menu of the original page is rewritten to a
website-scoped copy pointing at that new page. -/
theorem pageLoop_spec (n w : Nat) :
    ∀ (ps : List Page) (d : DB), d.WF →
      Pres d (ps.foldl
        (fun d p =>
          let newPageId := d.nextId
          let d1 : DB := { d with
            pages := d.pages ++ [{ p with id := newPageId, view_id := n }]
            nextId := d.nextId + 1 }
          (d1.menus.filter (fun m => m.page_id == p.id)).foldl
            (fun d2 m => menu_cow_write w m.id newPageId d2) d1) d) ∧
      ∀ p ∈ ps, ∃ p' ∈ (ps.foldl
        (fun d p =>
          let newPageId := d.nextId
          let d1 : DB := { d with
            pages := d.pages ++ [{ p with id := newPageId, view_id := n }]
            nextId := d.nextId + 1 }
          (d1.menus.filter (fun m => m.page_id == p.id)).foldl
            (fun d2 m => menu_cow_write w m.id newPageId d2) d1) d).pages,
        p'.name = p.name ∧ p'.view_id = n ∧ d.nextId ≤ p'.id ∧
        ∀ m ∈ d.menus, m.page_id = p.id →
          ∃ m' ∈ (ps.foldl
            (fun d p =>
              let newPageId := d.nextId
              let d1 : DB := { d with
                pages := d.pages ++ [{ p with id := newPageId, view_id := n }]
                nextId := d.nextId + 1 }
              (d1.menus.filter (fun m => m.page_id == p.id)).foldl
                (fun d2 m => menu_cow_write w m.id newPageId d2) d1) d).menus,
            m'.name = m.name ∧ m'.page_id = p'.id ∧ m'.website_id = some w ∧
              d.nextId ≤ m'.id := by
  intro ps
  induction ps with
  | nil =>
    intro d hwf
    exact ⟨Pres.refl_of_wf hwf, by simp⟩
  | cons p ps ih =>
    intro d hwf
    simp only [List.foldl_cons]
    have hd1pres : Pres d { d with
        pages := d.pages ++ [{ p with id := d.nextId, view_id := n }]
        nextId := d.nextId + 1 } := pageAppend_pres d p n hwf
    obtain ⟨hmlPres, hmlCopy⟩ := menuLoop_spec w d.nextId
      ({ d with
        pages := d.pages ++ [{ p with id := d.nextId, view_id := n }]
        nextId := d.nextId + 1 }.menus.filter (fun m => m.page_id == p.id))
      { d with
        pages := d.pages ++ [{ p with id := d.nextId, view_id := n }]
        nextId := d.nextId + 1 }
      hd1pres.wf (fun m hm => (List.mem_filter.mp hm).1)
    obtain ⟨hihPres, hihCopy⟩ := ih _ hmlPres.wf
    have hPresAll := (hd1pres.comp hmlPres).comp hihPres
    refine ⟨hPresAll, ?_⟩
    intro x hx
    rcases List.mem_cons.mp hx with hx | hx
    · subst hx
      refine ⟨{ x with id := d.nextId, view_id := n }, ?_, rfl, rfl,
        le_refl _, ?_⟩
      · apply hihPres.pages_mono
        apply hmlPres.pages_mono
        simp
      · intro m hm hmp
        have hmd1 : m ∈ ({ d with
            pages := d.pages ++ [{ x with id := d.nextId, view_id := n }]
            nextId := d.nextId + 1 } : DB).menus := hm
        have hmfil : m ∈ ({ d with
            pages := d.pages ++ [{ x with id := d.nextId, view_id := n }]
            nextId := d.nextId + 1 } : DB).menus.filter
              (fun m => m.page_id == x.id) :=
          List.mem_filter.mpr ⟨hmd1, by simp [hmp]⟩
        obtain ⟨m', hm', hn, hp, hw', hle⟩ := hmlCopy m hmfil
        exact ⟨m', hihPres.menus_mono m' hm', hn, hp, hw',
          le_trans (Nat.le_succ _) hle⟩
    · obtain ⟨p', hp', hn, hv, hle, hmen⟩ := hihCopy x hx
      refine ⟨p', hp', hn, hv,
        le_trans (le_trans hd1pres.nextId_le hmlPres.nextId_le) hle, ?_⟩
      intro m hm hmp
      have hm2 : m ∈ (({ d with
          pages := d.pages ++ [{ p with id := d.nextId, view_id := n }]
          nextId := d.nextId + 1 } : DB)).menus := hm
      obtain ⟨m', hm', hn', hp'', hw', hle'⟩ :=
        hmen m (hmlPres.menus_mono m hm2) hmp
      exact ⟨m', hm', hn', hp'', hw',
        le_trans (le_trans hd1pres.nextId_le hmlPres.nextId_le) hle'⟩

/-- New pages created by the page-copy loop all belong to the new view. -/
theorem pageLoop_pages_shape (n w : Nat) :
    ∀ (ps : List Page) (d : DB),
      ∀ p' ∈ (ps.foldl
        (fun d p =>
          let newPageId := d.nextId
          let d1 : DB := { d with
            pages := d.pages ++ [{ p with id := newPageId, view_id := n }]
            nextId := d.nextId + 1 }
          (d1.menus.filter (fun m => m.page_id == p.id)).foldl
            (fun d2 m => menu_cow_write w m.id newPageId d2) d1) d).pages,
        p' ∈ d.pages ∨ p'.view_id = n := by
  intro ps
  induction ps with
  | nil => intro d p' hp'; exact Or.inl hp'
  | cons p ps ih =>
    intro d p' hp'
    simp only [List.foldl_cons] at hp'
    have hmenus_pages : ∀ (ms : List Menu) (dd : DB),
        (ms.foldl (fun d2 m => menu_cow_write w m.id d.nextId d2) dd).pages =
          dd.pages := by
      intro ms
      induction ms with
      | nil => intro dd; rfl
      | cons m ms ihm =>
        intro dd
        simp only [List.foldl_cons, ihm]
        unfold menu_cow_write
        cases dd.menus.find? (fun x => x.id == m.id) <;> rfl
    rcases ih _ p' hp' with hin | hin
    · rw [hmenus_pages] at hin
      rcases List.mem_append.mp hin with hin | hin
      · exact Or.inl hin
      · simp at hin
        right
        rw [hin]
    · exact Or.inr hin

/-- `_create_website_specific_pages_for_view` combined specification:
invariants are preserved, every page of the original view is copied (same
name) onto the new view with its menus rewritten to website-scoped copies,
and every page of the result either pre-existed or belongs to the new
view. -/
theorem cpages_spec (o n w : Nat) (db : DB) (hwf : db.WF) :
    Pres db (_create_website_specific_pages_for_view o n w db) ∧
    (∀ p ∈ db.pages, p.view_id = o →
      ∃ p' ∈ (_create_website_specific_pages_for_view o n w db).pages,
        p'.name = p.name ∧ p'.view_id = n ∧ db.nextId ≤ p'.id ∧
        ∀ m ∈ db.menus, m.page_id = p.id →
          ∃ m' ∈ (_create_website_specific_pages_for_view o n w db).menus,
            m'.name = m.name ∧ m'.page_id = p'.id ∧ m'.website_id = some w ∧
              db.nextId ≤ m'.id) ∧
    (∀ p' ∈ (_create_website_specific_pages_for_view o n w db).pages,
      p' ∈ db.pages ∨ p'.view_id = n) := by
  unfold _create_website_specific_pages_for_view
  obtain ⟨hP, hC⟩ := pageLoop_spec n w
    (db.pages.filter (fun p => p.view_id == o)) db hwf
  exact ⟨hP,
    fun p hp hpv => hC p (List.mem_filter.mpr ⟨hp, by simp [hpv]⟩),
    pageLoop_pages_shape n w (db.pages.filter (fun p => p.view_id == o)) db⟩

/-- The inheriting-children loop of the COW fork: every (generic, childless,
pageless) child is itself specialized — a website fork of the child is
created whose `inherit_id` points at the new parent fork — while existing
records, pages and menus are untouched. -/
theorem childLoop_spec (fuel : Nat) (ctx : Ctx) (w nvid : Nat)
    (hnc : ctx.no_cow = false)
    (hth : hasThemeSubstring ctx.install_module = false)
    (hcw : ctx.website_id = some w) :
    ∀ (cs : List View) (d : DB), d.WF →
      (∀ c ∈ cs, c ∈ d.views ∧ c.website_id = none) →
      (∀ c ∈ cs, ∀ u ∈ d.views, u.inherit_id ≠ some c.id) →
      (∀ c ∈ cs, ∀ p ∈ d.pages, p.view_id ≠ c.id) →
      (∀ c ∈ cs, nvid ≠ c.id) →
      Pres d (cs.foldl (fun dd c => write (fuel+2) ctx [c.id]
          { inherit_id := some (some nvid) } dd) d) ∧
      (∀ u ∈ d.views, u ∈ (cs.foldl (fun dd c => write (fuel+2) ctx [c.id]
          { inherit_id := some (some nvid) } dd) d).views) ∧
      (cs.foldl (fun dd c => write (fuel+2) ctx [c.id]
          { inherit_id := some (some nvid) } dd) d).pages = d.pages ∧
      (cs.foldl (fun dd c => write (fuel+2) ctx [c.id]
          { inherit_id := some (some nvid) } dd) d).menus = d.menus ∧
      (∀ c ∈ cs, ∃ c' ∈ (cs.foldl (fun dd c => write (fuel+2) ctx [c.id]
          { inherit_id := some (some nvid) } dd) d).views,
        c'.key = c.key ∧ c'.inherit_id = some nvid ∧
          c'.website_id = some w ∧ d.nextId ≤ c'.id) := by
  intro cs
  induction cs with
  | nil =>
    intro d hwf _ _ _ _
    exact ⟨Pres.refl_of_wf hwf, fun u hu => hu, rfl, rfl, by simp⟩
  | cons c cs ih =>
    intro d hwf hmem hnochild hnopage hnv
    have hc := hmem c (List.mem_cons_self _ _)
    have hstep : write (fuel+2) ctx [c.id] { inherit_id := some (some nvid) } d =
        { d with
          views := d.views ++
            [applyVals { inherit_id := some (some nvid) }
              { c with id := d.nextId, website_id := some w }]
          nextId := d.nextId + 1 } := by
      rw [write_cow_closed_form fuel ctx w _ d c hwf hnc hth hcw hc.1 hc.2
        (hnochild c (List.mem_cons_self _ _))
        (hnopage c (List.mem_cons_self _ _))]
      exact superWrite_copy_eq _ d c (fun u => { u with website_id := some w }) hwf (fun u => rfl)
    have hdPres : Pres d (write (fuel+2) ctx [c.id]
        { inherit_id := some (some nvid) } d) :=
      (write_pres (fuel+2) ctx [c.id] _ d hwf).1
    have hd'wf : ({ d with
        views := d.views ++
          [applyVals { inherit_id := some (some nvid) }
            { c with id := d.nextId, website_id := some w }]
        nextId := d.nextId + 1 } : DB).WF := by
      rw [← hstep]
      exact hdPres.wf
    obtain ⟨ihPres, ihAll, ihPages, ihMenus, ihCopy⟩ := ih
      { d with
        views := d.views ++
          [applyVals { inherit_id := some (some nvid) }
            { c with id := d.nextId, website_id := some w }]
        nextId := d.nextId + 1 }
      hd'wf
      (by
        intro x hx
        obtain ⟨hx1, hx2⟩ := hmem x (List.mem_cons_of_mem _ hx)
        exact ⟨List.mem_append.mpr (Or.inl hx1), hx2⟩)
      (by
        intro x hx u hu
        rcases List.mem_append.mp hu with hu | hu
        · exact hnochild x (List.mem_cons_of_mem _ hx) u hu
        · simp at hu
          rw [hu]
          show some nvid ≠ some x.id
          intro hcon
          exact hnv x (List.mem_cons_of_mem _ hx) (Option.some.inj hcon))
      (fun x hx p hp => hnopage x (List.mem_cons_of_mem _ hx) p hp)
      (fun x hx => hnv x (List.mem_cons_of_mem _ hx))
    simp only [List.foldl_cons]
    have hdp : Pres d ({ d with
        views := d.views ++
          [applyVals { inherit_id := some (some nvid) }
            { c with id := d.nextId, website_id := some w }]
        nextId := d.nextId + 1 } : DB) := by
      rw [← hstep]
      exact hdPres
    rw [hstep]
    refine ⟨hdp.comp ihPres, ?_, ?_, ?_, ?_⟩
    · intro u hu
      exact ihAll u (List.mem_append.mpr (Or.inl hu))
    · rw [ihPages]
    · rw [ihMenus]
    · intro x hx
      rcases List.mem_cons.mp hx with hx | hx
    
      · subst hx
        refine ⟨applyVals { inherit_id := some (some nvid) }
          { x with id := d.nextId, website_id := some w }, ?_, rfl, rfl, rfl,
          le_refl _⟩
        exact ihAll _ (List.mem_append.mpr (Or.inr (by simp)))
      · obtain ⟨c', hc', hk, hi, hw', hle⟩ := ihCopy x hx
        exact ⟨c', hc', hk, hi, hw', le_trans (Nat.le_succ _) hle⟩

/-- One COW step unfolded: a write on a generic view under a website context
reduces to the recursive write of `vals` on the fresh fork, performed on the
store extended by the fork, its page/menu copies, and the child rewrites. -/
theorem write_cow_unfold (fuel : Nat) (ctx : Ctx) (w : Nat) (vals : Vals)
    (db : DB) (v : View)
    (hwf : db.WF) (hnc : ctx.no_cow = false)
    (hth : hasThemeSubstring ctx.install_module = false)
    (hcw : ctx.website_id = some w)
    (hv : v ∈ db.views) (hgen : v.website_id = none) :
    write (fuel+1) ctx [v.id] vals db =
      write fuel ctx
        [(db.copyView v (fun u => { u with website_id := some w })).1.id] vals
        ((inheritChildren
            (_create_website_specific_pages_for_view v.id
              (db.copyView v (fun u => { u with website_id := some w })).1.id w
              (db.copyView v (fun u => { u with website_id := some w })).2)
            v.id).foldl
          (fun dd inherit_child => write fuel ctx [inherit_child.id]
            { inherit_id := some (some
              (db.copyView v
                (fun u => { u with website_id := some w })).1.id) }
            dd)
          (_create_website_specific_pages_for_view v.id
            (db.copyView v (fun u => { u with website_id := some w })).1.id w
            (db.copyView v (fun u => { u with website_id := some w })).2)) := by
  rw [write_succ]
  simp only [hnc, Bool.false_eq_true, if_false, List.foldl_cons,
    List.foldl_nil]
  unfold writeStepF
  rw [findView_of_mem hwf hv]
  simp only [hth, Bool.false_eq_true, if_false, hcw, hgen]

/-- A write on a website-specific view (no bypass, no theme update) is an
in-place update. -/
theorem write_in_place_specific (fuel : Nat) (ctx : Ctx) (vals : Vals)
    (db : DB) (u : View) (x : Nat)
    (hwf : db.WF) (hnc : ctx.no_cow = false)
    (hth : hasThemeSubstring ctx.install_module = false)
    (hu : u ∈ db.views) (hus : u.website_id = some x) :
    write (fuel+1) ctx [u.id] vals db = superWrite [u.id] vals db := by
  rw [write_succ]
  simp only [hnc, Bool.false_eq_true, if_false, List.foldl_cons,
    List.foldl_nil]
  unfold writeStepF
  rw [findView_of_mem hwf hu]
  simp only [hth, Bool.false_eq_true, if_false]
  cases hcw : ctx.website_id <;> simp only [hus] <;> rfl

/-- C7: forking a generic template for a website preserves its structure —
every owned page is copied (same name) with its owning reference pointed at
the fork, each copied page's menus are rewritten to website-scoped menu
copies pointing at the new page, and every inheriting child is recursively
specialized with its `inherit_id` repointed at the fork; all new records
carry fresh ids, and the original views, pages and menus all survive
unchanged. (Children are assumed generic without own children or pages,
matching one level of the recursive propagation.) -/
theorem C7_fork_preserves_structure (fuel : Nat) (ctx : Ctx) (w : Nat)
    (vals : Vals) (db : DB) (v : View)
    (hwf : db.WF) (hnc : ctx.no_cow = false)
    (hth : hasThemeSubstring ctx.install_module = false)
    (hcw : ctx.website_id = some w)
    (hv : v ∈ db.views) (hgen : v.website_id = none)
    (hvinh : v.inherit_id = none)
    (hchildgen : ∀ c ∈ db.views, c.inherit_id = some v.id →
      c.website_id = none)
    (hgrand : ∀ c ∈ db.views, c.inherit_id = some v.id →
      ∀ u ∈ db.views, u.inherit_id ≠ some c.id)
    (hchildpage : ∀ c ∈ db.views, c.inherit_id = some v.id →
      ∀ p ∈ db.pages, p.view_id ≠ c.id)
    (hvw : vals.website_id = none) :
    ((∀ p ∈ db.pages, p ∈ (write (fuel+3) ctx [v.id] vals db).pages) ∧
     (∀ m ∈ db.menus, m ∈ (write (fuel+3) ctx [v.id] vals db).menus) ∧
     (∀ u ∈ db.views, u.website_id = none →
        u ∈ (write (fuel+3) ctx [v.id] vals db).views)) ∧
    (∃ f ∈ (write (fuel+3) ctx [v.id] vals db).views, f.id = db.nextId ∧
      f.website_id = some w ∧ f.key = vals.key.getD v.key) ∧
    (∀ p ∈ db.pages, p.view_id = v.id →
      ∃ p' ∈ (write (fuel+3) ctx [v.id] vals db).pages,
        p'.name = p.name ∧ p'.view_id = db.nextId ∧ db.nextId < p'.id ∧
        ∀ m ∈ db.menus, m.page_id = p.id →
          ∃ m' ∈ (write (fuel+3) ctx [v.id] vals db).menus,
            m'.name = m.name ∧ m'.page_id = p'.id ∧ m'.website_id = some w ∧
              db.nextId < m'.id) ∧
    (∀ c ∈ db.views, c.inherit_id = some v.id →
      ∃ c' ∈ (write (fuel+3) ctx [v.id] vals db).views,
        c'.key = c.key ∧ c'.inherit_id = some db.nextId ∧
          c'.website_id = some w ∧ db.nextId < c'.id) := by
  have hcowctx : cowCtx ctx := ⟨hnc, hth, by rw [hcw]; rfl⟩
  obtain ⟨hPresAll, hGenAll⟩ := write_pres (fuel+3) ctx [v.id] vals db hwf
  refine ⟨⟨fun p hp => hPresAll.pages_mono p hp,
    fun m hm => hPresAll.menus_mono m hm,
    fun u hu hug => hGenAll hcowctx u hu hug⟩, ?_, ?_, ?_⟩
  all_goals {
  have hunf : write (fuel+3) ctx [v.id] vals db =
      write (fuel+2) ctx
        [(db.copyView v (fun u => { u with website_id := some w })).1.id] vals
        ((inheritChildren
            (_create_website_specific_pages_for_view v.id
              (db.copyView v (fun u => { u with website_id := some w })).1.id w
              (db.copyView v (fun u => { u with website_id := some w })).2)
            v.id).foldl
          (fun dd inherit_child => write (fuel+2) ctx [inherit_child.id]
            { inherit_id := some (some
              (db.copyView v
                (fun u => { u with website_id := some w })).1.id) }
            dd)
          (_create_website_specific_pages_for_view v.id
            (db.copyView v (fun u => { u with website_id := some w })).1.id w
            (db.copyView v (fun u => { u with website_id := some w })).2)) :=
    write_cow_unfold (fuel+2) ctx w vals db v hwf hnc hth hcw hv hgen
  set nv : View := (db.copyView v
    (fun u => { u with website_id := some w })).1 with hnvdef
  set d2 : DB := (db.copyView v
    (fun u => { u with website_id := some w })).2 with hd2def
  set d3 : DB := _create_website_specific_pages_for_view v.id nv.id w d2
    with hd3def
  set cs : List View := inheritChildren d3 v.id with hcsdef
  set d4 : DB := cs.foldl
    (fun dd inherit_child => write (fuel+2) ctx [inherit_child.id]
      { inherit_id := some (some nv.id) } dd) d3 with hd4def
  have hd2wf : d2.WF :=
    (@copyView_pres db v (fun u => { u with website_id := some w }) hwf
      (fun u => rfl)).wf
  have hnvid : nv.id = db.nextId := rfl
  have hnvw : nv.website_id = some w := rfl
  have hd2views : d2.views = db.views ++ [nv] := rfl
  have hd2pages : d2.pages = db.pages := rfl
  have hd2menus : d2.menus = db.menus := rfl
  have hd2next : d2.nextId = db.nextId + 1 := rfl
  obtain ⟨hcpPres, hcpCopy, hcpShape⟩ := cpages_spec v.id nv.id w d2 hd2wf
  have hd3views : d3.views = d2.views := cpages_views v.id nv.id w d2
  have hd3wf : d3.WF := hcpPres.wf
  have hcsmem : ∀ c ∈ cs, c ∈ db.views ∧ c.inherit_id = some v.id := by
    intro c hc
    rw [hcsdef] at hc
    unfold inheritChildren at hc
    obtain ⟨hc1, hc2⟩ := List.mem_filter.mp hc
    rw [hd3views, hd2views] at hc1
    have hc2' : c.inherit_id = some v.id := by simpa using hc2
    rcases List.mem_append.mp hc1 with hc1 | hc1
    · exact ⟨hc1, hc2'⟩
    · simp at hc1
      exfalso
      rw [hc1] at hc2'
      have : nv.inherit_id = none := hvinh
      rw [this] at hc2'
      exact Option.noConfusion hc2'
  obtain ⟨hclPres, hclAll, hclPages, hclMenus, hclCopy⟩ :=
    childLoop_spec fuel ctx w nv.id hnc hth hcw cs d3 hd3wf
      (by
        intro c hc
        refine ⟨?_, hchildgen c (hcsmem c hc).1 (hcsmem c hc).2⟩
        rw [hcsdef] at hc
        exact (List.mem_filter.mp hc).1)
      (by
        intro c hc u hu
        rw [hd3views, hd2views] at hu
        rcases List.mem_append.mp hu with hu | hu
        · exact hgrand c (hcsmem c hc).1 (hcsmem c hc).2 u hu
        · simp at hu
          rw [hu]
          show v.inherit_id ≠ some c.id
          rw [hvinh]
          exact Option.noConfusion
        )
      (by
        intro c hc p hp
        rcases hcpShape p hp with hp' | hp'
        · rw [hd2pages] at hp'
          exact hchildpage c (hcsmem c hc).1 (hcsmem c hc).2 p hp'
        · rw [hp', hnvid]
          have := hwf.views_lt c (hcsmem c hc).1
          omega)
      (by
        intro c hc
        rw [hnvid]
        have := hwf.views_lt c (hcsmem c hc).1
        omega)
  have hnvd3 : nv ∈ d3.views := by
    rw [hd3views, hd2views]
    simp
  have hnvd4 : nv ∈ d4.views := hclAll nv hnvd3
  have hd4wf : d4.WF := hclPres.wf
  have hres : write (fuel+3) ctx [v.id] vals db =
      superWrite [nv.id] vals d4 := by
    have h1 : write (fuel+3) ctx [v.id] vals db =
        write (fuel+2) ctx [nv.id] vals d4 := hunf
    rw [h1]
    exact write_in_place_specific (fuel+1) ctx vals d4 nv w hd4wf hnc hth
      hnvd4 hnvw
  rw [hres]
  clear hres hunf
  first
  | -- the fork exists
    (refine ⟨applyVals vals nv, superWrite_mem_in hnvd4 (by simp), rfl, ?_, ?_⟩
     · show vals.website_id.getD nv.website_id = some w
       rw [hvw, hnvw]
       rfl
     · rfl)
  | -- pages and menus
    (intro p hp hpv
     obtain ⟨p', hp', hn, hvw', hle, hmen⟩ := hcpCopy p (hd2pages ▸ hp) hpv
     refine ⟨p', ?_, hn, hvw', ?_, ?_⟩
     · show p' ∈ (superWrite [nv.id] vals d4).pages
       show p' ∈ d4.pages
       rw [hclPages]
       exact hp'
     · rw [hd2next] at hle
       omega
     · intro m hm hmp
       obtain ⟨m', hm', hn', hp'', hw', hle'⟩ := hmen m (hd2menus ▸ hm) hmp
       refine ⟨m', ?_, hn', hp'', hw', by rw [hd2next] at hle'; omega⟩
       show m' ∈ d4.menus
       rw [hclMenus]
       exact hm')
  | -- children
    (intro c hc hci
     have hccs : c ∈ cs := by
       rw [hcsdef]
       unfold inheritChildren
       refine List.mem_filter.mpr ⟨?_, by simp [hci]⟩
       rw [hd3views, hd2views]
       exact List.mem_append.mpr (Or.inl hc)
     obtain ⟨c', hc', hk, hi, hw', hle⟩ := hclCopy c hccs
     have hd3next : db.nextId < d3.nextId := by
       have := hcpPres.nextId_le
       rw [← hd3def] at this
       rw [hd2next] at this
       omega
     refine ⟨c', ?_, hk, by rw [hi, hnvid], hw', by omega⟩
     apply superWrite_mem_not_in hc'
     simp only [List.mem_singleton]
     rw [hnvid]
     intro hcon
     omega)
  }

/-- Concrete store for the C7 witness: a generic view owning one page with
one menu, and one generic inheriting child. -/
def c7db : DB :=
  { views := [mkView 1 "k" none none none true 16,
              mkView 2 "c" none none (some 1) true 16],
    pages := [⟨3, "home", 1⟩], menus := [⟨4, "menu", 3, none⟩],
    websites := [⟨7, []⟩], modelData := [], modules := [], nextId := 5 }

/-- Context for the C7 witness: website 7. -/
def c7ctx : Ctx := ⟨some 7, "", false⟩

/-- The generic view of the C7 witness store. -/
def c7v : View := mkView 1 "k" none none none true 16

/-- Witness for C7 at a concrete store. -/
theorem C7_fork_preserves_structure_witness :
    (c7db.WF ∧ c7ctx.no_cow = false ∧
     hasThemeSubstring c7ctx.install_module = false ∧
     c7ctx.website_id = some 7 ∧ c7v ∈ c7db.views ∧
     c7v.website_id = none ∧ c7v.inherit_id = none ∧
     (∀ c ∈ c7db.views, c.inherit_id = some c7v.id → c.website_id = none) ∧
     (∀ c ∈ c7db.views, c.inherit_id = some c7v.id →
       ∀ u ∈ c7db.views, u.inherit_id ≠ some c.id) ∧
     (∀ c ∈ c7db.views, c.inherit_id = some c7v.id →
       ∀ p ∈ c7db.pages, p.view_id ≠ c.id) ∧
     c1vals.website_id = none) ∧
    (((∀ p ∈ c7db.pages, p ∈ (write (0+3) c7ctx [c7v.id] c1vals c7db).pages) ∧
      (∀ m ∈ c7db.menus, m ∈ (write (0+3) c7ctx [c7v.id] c1vals c7db).menus) ∧
      (∀ u ∈ c7db.views, u.website_id = none →
        u ∈ (write (0+3) c7ctx [c7v.id] c1vals c7db).views)) ∧
     (∃ f ∈ (write (0+3) c7ctx [c7v.id] c1vals c7db).views,
       f.id = c7db.nextId ∧ f.website_id = some 7 ∧
       f.key = c1vals.key.getD c7v.key) ∧
     (∀ p ∈ c7db.pages, p.view_id = c7v.id →
       ∃ p' ∈ (write (0+3) c7ctx [c7v.id] c1vals c7db).pages,
         p'.name = p.name ∧ p'.view_id = c7db.nextId ∧ c7db.nextId < p'.id ∧
         ∀ m ∈ c7db.menus, m.page_id = p.id →
           ∃ m' ∈ (write (0+3) c7ctx [c7v.id] c1vals c7db).menus,
             m'.name = m.name ∧ m'.page_id = p'.id ∧ m'.website_id = some 7 ∧
               c7db.nextId < m'.id) ∧
     (∀ c ∈ c7db.views, c.inherit_id = some c7v.id →
       ∃ c' ∈ (write (0+3) c7ctx [c7v.id] c1vals c7db).views,
         c'.key = c.key ∧ c'.inherit_id = some c7db.nextId ∧
           c'.website_id = some 7 ∧ c7db.nextId < c'.id)) :=
  ⟨⟨⟨by decide, by decide, by decide, by decide, by decide, by decide⟩,
    rfl, by decide, rfl, by decide, rfl, rfl, by decide, by decide,
    by decide, rfl⟩,
   C7_fork_preserves_structure 0 c7ctx 7 c1vals c7db c7v
     ⟨by decide, by decide, by decide, by decide, by decide, by decide⟩
     rfl (by decide) rfl (by decide) rfl rfl (by decide) (by decide)
     (by decide) rfl⟩


/-! ### Copy-on-unlink (COU) -/

/-- The renamed key the COU pass writes for one website: the Python
`'%s [website %s]' % (view.key, website.id)`. -/
def renameKey (k : String) (i : Nat) : String :=
  k ++ " [website " ++ toString i ++ "]"

/-- A key never equals the rename of a key at least as long: the rename
appends a nonempty suffix. -/
theorem renameKey_ne_of_le {k k' : String} (m : Nat)
    (h : k'.length ≤ k.length) : k' ≠ renameKey k m := by
  intro he
  have hlen := congrArg String.length he
  simp [renameKey, String.length_append] at hlen
  have h1 : " [website ".length = 10 := rfl
  have h2 : "]".length = 1 := rfl
  omega

/-- The renamed key differs from the original key. -/
theorem renameKey_ne (k : String) (m : Nat) : renameKey k m ≠ k :=
  fun he => renameKey_ne_of_le m (le_refl k.length) he.symm

/-- The record the COU pass appends for one website: a copy of the generic
view under a fresh id, scoped to that website, carrying the renamed key
(the net effect of the key-renaming COW write). -/
def couFork (v : View) (n : Nat) (site : Website) : View :=
  applyVals { key := some (renameKey v.key site.id) }
    { v with id := n, website_id := some site.id }

theorem couFork_id (v : View) (n : Nat) (s : Website) :
    (couFork v n s).id = n := rfl

theorem couFork_key (v : View) (n : Nat) (s : Website) :
    (couFork v n s).key = renameKey v.key s.id := rfl

theorem couFork_website (v : View) (n : Nat) (s : Website) :
    (couFork v n s).website_id = some s.id := rfl

theorem couFork_theme (v : View) (n : Nat) (s : Website) :
    (couFork v n s).theme_id = v.theme_id := rfl

theorem couFork_active (v : View) (n : Nat) (s : Website) :
    (couFork v n s).active = v.active := rfl

theorem couFork_inherit (v : View) (n : Nat) (s : Website) :
    (couFork v n s).inherit_id = v.inherit_id := rfl

/-- The forks the COU pass appends for a list of websites, consuming fresh
ids from `n` upward. -/
def couForks (v : View) (n : Nat) : List Website → List View
  | [] => []
  | s :: rest => couFork v n s :: couForks v (n+1) rest

theorem couForks_nil (v : View) (n : Nat) : couForks v n [] = [] := rfl

theorem couForks_cons (v : View) (n : Nat) (s : Website)
    (rest : List Website) :
    couForks v n (s :: rest) = couFork v n s :: couForks v (n+1) rest := rfl

/-- Every listed website owns a fork at some fresh id. -/
theorem couForks_mem (v : View) :
    ∀ (sites : List Website) (n : Nat), ∀ s ∈ sites,
      ∃ k, n ≤ k ∧ couFork v k s ∈ couForks v n sites := by
  intro sites
  induction sites with
  | nil => intro n s hs; simp at hs
  | cons a rest ih =>
    intro n s hs
    rcases List.mem_cons.mp hs with hs | hs
    · subst hs
      exact ⟨n, le_refl n, List.mem_cons_self _ _⟩
    · obtain ⟨k, hk, hmem⟩ := ih (n+1) s hs
      exact ⟨k, by omega, List.mem_cons_of_mem _ hmem⟩

/-- Every fork in the list is the fork of some listed website. -/
theorem couForks_shape (v : View) :
    ∀ (sites : List Website) (n : Nat), ∀ f ∈ couForks v n sites,
      ∃ s ∈ sites, ∃ k, n ≤ k ∧ f = couFork v k s := by
  intro sites
  induction sites with
  | nil => intro n f hf; simp [couForks] at hf
  | cons s rest ih =>
    intro n f hf
    rw [couForks_cons] at hf
    rcases List.mem_cons.mp hf with hf | hf
    · exact ⟨s, List.mem_cons_self _ _, n, le_refl n, hf⟩
    · obtain ⟨s', hs', k, hk, hfk⟩ := ih (n+1) f hf
      exact ⟨s', List.mem_cons_of_mem _ hs', k, by omega, hfk⟩

/-- Fork ids are consecutive fresh ids. -/
theorem couForks_ids (v : View) :
    ∀ (sites : List Website) (n : Nat), ∀ f ∈ couForks v n sites,
      n ≤ f.id ∧ f.id < n + sites.length := by
  intro sites
  induction sites with
  | nil => intro n f hf; simp [couForks] at hf
  | cons s rest ih =>
    intro n f hf
    rw [couForks_cons] at hf
    rcases List.mem_cons.mp hf with hf | hf
    · subst hf
      refine ⟨Nat.le_refl n, ?_⟩
      show n < n + (rest.length + 1)
      omega
    · obtain ⟨h1, h2⟩ := ih (n+1) f hf
      refine ⟨by omega, ?_⟩
      show f.id < n + (rest.length + 1)
      omega

/-- Fork ids are pairwise distinct. -/
theorem couForks_nodup (v : View) :
    ∀ (sites : List Website) (n : Nat),
      ((couForks v n sites).map View.id).Nodup := by
  intro sites
  induction sites with
  | nil => intro n; simp [couForks]
  | cons s rest ih =>
    intro n
    rw [couForks_cons, List.map_cons, List.nodup_cons]
    refine ⟨?_, ih (n+1)⟩
    intro hmem
    obtain ⟨f, hf, hfid⟩ := List.mem_map.mp hmem
    have h1 := (couForks_ids v rest (n+1) f hf).1
    have h2 : f.id = n := hfid
    omega


/-- The store after the COU forking pass of `unlink` for a single generic
view under current website `A`: one fork per other website, appended under
consecutive fresh ids. -/
def couDB (v : View) (A : Nat) (db : DB) : DB :=
  { db with
    views := db.views ++
      couForks v db.nextId (db.websites.filter (fun site => site.id != A))
    nextId := db.nextId +
      (db.websites.filter (fun site => site.id != A)).length }

/-- The expanded deletion set of `unlink` for a single generic view: the
view's id together with every view of the forked store sharing its key. -/
def couDelIds (v : View) (A : Nat) (db : DB) : List Nat :=
  [v.id] ++ (((couDB v A db).views.filter
    (fun u => [v.key].contains u.key)).map View.id)

/-- The final store of `unlink` for a single generic view: the forked store
with the expanded deletion set removed. -/
def couResult (v : View) (A : Nat) (db : DB) : DB :=
  { couDB v A db with
    views := (couDB v A db).views.filter
      (fun u => !((couDelIds v A db).contains u.id)) }

/-- Well-formedness of the forked store. -/
theorem couDB_wf {db : DB} (hwf : db.WF) (v : View) (A : Nat) :
    (couDB v A db).WF := by
  refine ⟨?_, ?_, ?_, hwf.pages_nodup, ?_, hwf.menus_nodup⟩
  · intro x hx
    rcases List.mem_append.mp hx with hx | hx
    · have := hwf.views_lt x hx
      show x.id < db.nextId +
        (db.websites.filter (fun site => site.id != A)).length
      omega
    · obtain ⟨h1, h2⟩ :=
        couForks_ids v (db.websites.filter (fun site => site.id != A))
          db.nextId x hx
      exact h2
  · show ((db.views ++
      couForks v db.nextId
        (db.websites.filter (fun site => site.id != A))).map View.id).Nodup
    rw [List.map_append, List.nodup_append]
    refine ⟨hwf.views_nodup, couForks_nodup v _ db.nextId, ?_⟩
    intro a ha hb
    obtain ⟨x, hx, rfl⟩ := List.mem_map.mp ha
    obtain ⟨y, hy, hxy⟩ := List.mem_map.mp hb
    have h1 := hwf.views_lt x hx
    have h2 := (couForks_ids v _ db.nextId y hy).1
    omega
  · intro p hp
    have := hwf.pages_lt p hp
    show p.id < db.nextId +
      (db.websites.filter (fun site => site.id != A)).length
    omega
  · intro m hm
    have := hwf.menus_lt m hm
    show m.id < db.nextId +
      (db.websites.filter (fun site => site.id != A)).length
    omega

/-- Closed form of the COU forking loop of `unlink`: iterating the
key-renaming COW write over a list of websites appends exactly one fork per
website under consecutive fresh ids, leaving everything else unchanged. -/
theorem cou_loop (fuel : Nat) (ctx : Ctx) (v : View)
    (hnc : ctx.no_cow = false)
    (hth : hasThemeSubstring ctx.install_module = false)
    (hgen : v.website_id = none) :
    ∀ (sites : List Website) (d : DB), d.WF → v ∈ d.views →
      (∀ u ∈ d.views, u.inherit_id ≠ some v.id) →
      (∀ p ∈ d.pages, p.view_id ≠ v.id) →
      sites.foldl
        (fun (d' : DB) (site : Website) =>
          match d'.findView v.id with
          | none => d'
          | some cur =>
            write (fuel+2)
              { website_id := some site.id
                install_module := ctx.install_module
                no_cow := false } [v.id]
              { key := some (cur.key ++ " [website " ++ toString site.id ++ "]") }
              d')
        d =
      { d with
        views := d.views ++ couForks v d.nextId sites
        nextId := d.nextId + sites.length } := by
  intro sites
  induction sites with
  | nil =>
    intro d hwf hv hnochild hnopage
    simp [couForks]
  | cons s rest ih =>
    intro d hwf hv hnochild hnopage
    have e1 := write_cow_closed_form fuel
      { website_id := some s.id
        install_module := ctx.install_module
        no_cow := false }
      s.id { key := some (v.key ++ " [website " ++ toString s.id ++ "]") }
      d v hwf rfl hth rfl hv hgen hnochild hnopage
    have e2 := superWrite_copy_eq
      { key := some (v.key ++ " [website " ++ toString s.id ++ "]") } d v
      (fun u => { u with website_id := some s.id }) hwf (fun u => rfl)
    have hstep : (match d.findView v.id with
        | none => d
        | some cur =>
          write (fuel+2)
            { website_id := some s.id
              install_module := ctx.install_module
              no_cow := false } [v.id]
            { key := some (cur.key ++ " [website " ++ toString s.id ++ "]") }
            d) =
        { d with
          views := d.views ++ [couFork v d.nextId s]
          nextId := d.nextId + 1 } := by
      rw [findView_of_mem hwf hv]
      exact e1.trans e2
    have hwf1 : DB.WF { d with
        views := d.views ++ [couFork v d.nextId s]
        nextId := d.nextId + 1 } := by
      refine ⟨?_, ?_, ?_, hwf.pages_nodup, ?_, hwf.menus_nodup⟩
      · intro x hx
        rcases List.mem_append.mp hx with hx | hx
        · exact lt_trans (hwf.views_lt x hx) (Nat.lt_succ_self _)
        · simp at hx
          rw [hx]
          exact Nat.lt_succ_self _
      · simp only [List.map_append, List.map_cons, List.map_nil]
        rw [List.nodup_append]
        refine ⟨hwf.views_nodup, List.nodup_singleton _, ?_⟩
        intro x hx
        obtain ⟨u, hu, rfl⟩ := List.mem_map.mp hx
        simp [couFork_id]
        exact Nat.ne_of_lt (hwf.views_lt u hu)
      · intro p hp
        exact lt_trans (hwf.pages_lt p hp) (Nat.lt_succ_self _)
      · intro m hm
        exact lt_trans (hwf.menus_lt m hm) (Nat.lt_succ_self _)
    have hv1 : v ∈ ({ d with
        views := d.views ++ [couFork v d.nextId s]
        nextId := d.nextId + 1 } : DB).views :=
      List.mem_append.mpr (Or.inl hv)
    have hnochild1 : ∀ u ∈ ({ d with
        views := d.views ++ [couFork v d.nextId s]
        nextId := d.nextId + 1 } : DB).views, u.inherit_id ≠ some v.id := by
      intro u hu
      rcases List.mem_append.mp hu with hu | hu
      · exact hnochild u hu
      · simp at hu
        rw [hu, couFork_inherit]
        exact hnochild v hv
    simp only [List.foldl_cons]
    rw [hstep]
    rw [ih _ hwf1 hv1 hnochild1 hnopage]
    dsimp only
    rw [couForks_cons]
    congr 1
    · simp [List.append_assoc]
    · show d.nextId + 1 + rest.length = d.nextId + (rest.length + 1)
      omega


/-- Closed form of `unlink` on a single generic view under a website
context: the COU pass appends one fork per other website, the deletion set
is expanded to every view sharing the original key, and the expanded set is
removed. -/
theorem unlink_cou_closed_form (fuel : Nat) (ctx : Ctx) (A : Nat)
    (db : DB) (v : View)
    (hwf : db.WF) (hnc : ctx.no_cow = false)
    (hth : hasThemeSubstring ctx.install_module = false)
    (hcw : ctx.website_id = some A)
    (hv : v ∈ db.views) (hgen : v.website_id = none)
    (hkey : v.key ≠ "")
    (hnochild : ∀ u ∈ db.views, u.inherit_id ≠ some v.id)
    (hnopage : ∀ p ∈ db.pages, p.view_id ≠ v.id) :
    unlink (fuel+2) ctx [v.id] db = couResult v A db := by
  have hloop := cou_loop fuel ctx v hnc hth hgen
    (db.websites.filter (fun site => site.id != A)) db hwf hv hnochild hnopage
  have hwfL : (couDB v A db).WF := couDB_wf hwf v A
  have hv1 : v ∈ (couDB v A db).views := List.mem_append.mpr (Or.inl hv)
  have hsel : ([v.id].filterMap db.findView).filter
      (fun view => view.website_id == none) = [v] := by
    simp [List.filterMap_cons, findView_of_mem hwf hv, List.filter_cons, hgen]
  have hsel2 : [v.id].filterMap (couDB v A db).findView = [v] := by
    simp [List.filterMap_cons, findView_of_mem hwfL hv1]
  have hkeys : (([v] : List View).map View.key).filter (fun k => k != "") =
      [v.key] := by
    simp [hkey]
  simp only [unlink, hcw, hnc]
  rw [hsel]
  simp only [List.foldl_cons, List.foldl_nil]
  rw [hloop]
  rw [show ({ db with
      views := db.views ++
        couForks v db.nextId (db.websites.filter (fun site => site.id != A))
      nextId := db.nextId +
        (db.websites.filter (fun site => site.id != A)).length } : DB) =
    couDB v A db from rfl]
  rw [hsel2, hkeys]
  rfl


/-- C2: deleting a generic template under website A's context (no bypass
flag) first forks it for every other website through the key-renaming COW
write, then expands the deletion set to every view sharing the original key
and removes it: afterwards every other website owns a surviving fork
scoped to it and carrying the renamed key, no view with the original key
remains, the original key no longer resolves under A's context, and each
renamed key resolves under its own website's context to a record scoped to
that website. -/
theorem C2_cou_unlink_protection (fuel : Nat) (ctx : Ctx) (A : Nat)
    (db : DB) (v : View)
    (hwf : db.WF) (hnc : ctx.no_cow = false)
    (hth : hasThemeSubstring ctx.install_module = false)
    (hcw : ctx.website_id = some A)
    (hv : v ∈ db.views) (hgen : v.website_id = none)
    (hkey : v.key ≠ "") (hact : v.active = true) (hthm : v.theme_id = none)
    (hnochild : ∀ u ∈ db.views, u.inherit_id ≠ some v.id)
    (hnopage : ∀ p ∈ db.pages, p.view_id ≠ v.id)
    (hnocoll : ∀ u ∈ db.views, ∀ m : Nat, u.key ≠ renameKey v.key m) :
    (∀ site ∈ db.websites, site.id ≠ A →
      ∃ f ∈ (unlink (fuel+2) ctx [v.id] db).views,
        f.website_id = some site.id ∧ f.key = renameKey v.key site.id ∧
        db.nextId ≤ f.id) ∧
    (∀ u ∈ (unlink (fuel+2) ctx [v.id] db).views, u.key ≠ v.key) ∧
    get_view_id ctx (unlink (fuel+2) ctx [v.id] db) (.key v.key) =
      .error v.key ∧
    (∀ site ∈ db.websites, site.id ≠ A →
      ∃ r, get_view_id { ctx with website_id := some site.id }
          (unlink (fuel+2) ctx [v.id] db) (.key (renameKey v.key site.id)) =
          .ok r ∧
        ∃ u ∈ (unlink (fuel+2) ctx [v.id] db).views, u.id = r ∧
          u.key = renameKey v.key site.id ∧
          u.website_id = some site.id) := by
  have hfinal := unlink_cou_closed_form fuel ctx A db v hwf hnc hth hcw hv
    hgen hkey hnochild hnopage
  rw [hfinal]
  have hwfL : (couDB v A db).WF := couDB_wf hwf v A
  have hno : ∀ u ∈ (couResult v A db).views, u.key ≠ v.key := by
    intro u hu hukey
    obtain ⟨huL, hupred⟩ := List.mem_filter.mp hu
    have hmemfil : u ∈ (couDB v A db).views.filter
        (fun x => [v.key].contains x.key) :=
      List.mem_filter.mpr ⟨huL, by simp [hukey]⟩
    have hid : u.id ∈ couDelIds v A db :=
      List.mem_append.mpr (Or.inr (List.mem_map_of_mem View.id hmemfil))
    simp at hupred
    exact hupred hid
  have hfork : ∀ site ∈ db.websites, site.id ≠ A →
      ∃ k, db.nextId ≤ k ∧ couFork v k site ∈ (couResult v A db).views := by
    intro site hsite hne
    have hsmem : site ∈ db.websites.filter (fun s => s.id != A) :=
      List.mem_filter.mpr ⟨hsite, by simpa using hne⟩
    obtain ⟨k, hk, hmem⟩ := couForks_mem v _ db.nextId site hsmem
    have hfL : couFork v k site ∈ (couDB v A db).views :=
      List.mem_append.mpr (Or.inr hmem)
    have hvlt : v.id < db.nextId := hwf.views_lt v hv
    have hnotdel : (couFork v k site).id ∉ couDelIds v A db := by
      intro hmemdel
      rcases List.mem_append.mp hmemdel with h1 | h1
      · have h2 : (couFork v k site).id = v.id := by simpa using h1
        have h3 : k = v.id := h2
        omega
      · obtain ⟨u, hu, huid⟩ := List.mem_map.mp h1
        obtain ⟨huL, hukey⟩ := List.mem_filter.mp hu
        have hukey' : u.key = v.key := by simpa using hukey
        have hueq : u = couFork v k site :=
          view_eq_of_id_eq hwfL huL hfL huid
        rw [hueq, couFork_key] at hukey'
        exact renameKey_ne v.key site.id hukey'
    have hres : couFork v k site ∈ (couResult v A db).views := by
      refine List.mem_filter.mpr ⟨hfL, ?_⟩
      simp [hnotdel]
    exact ⟨k, hk, hres⟩
  refine ⟨?_, hno, ?_, ?_⟩
  · intro site hsite hne
    obtain ⟨k, hk, hres⟩ := hfork site hsite hne
    exact ⟨couFork v k site, hres, couFork_website v k site,
      couFork_key v k site, hk⟩
  · refine get_view_id_key_error hcw ?_
    intro u hu
    have h1 : (u.key == v.key) = false := by simpa using hno u hu
    simp [getViewIdDomain, h1]
  · intro site hsite hne
    obtain ⟨k, hk, hfR⟩ := hfork site hsite hne
    have hdom : getViewIdDomain (themesOf (couResult v A db) site.id) site.id
        (renameKey v.key site.id) (couFork v k site) = true := by
      simp [getViewIdDomain, websiteDomain, couFork_key, couFork_website,
        couFork_theme, couFork_active, hthm, hact]
    obtain ⟨u, huR, hudom, hok, humin⟩ :=
      @get_view_id_key_ok { ctx with website_id := some site.id }
        (couResult v A db) site.id (renameKey v.key site.id) rfl
        ⟨couFork v k site, hfR, hdom⟩
    simp only [getViewIdDomain, Bool.and_eq_true] at hudom
    obtain ⟨⟨hd1, hd2⟩, hd3⟩ := hudom
    have hukey : u.key = renameKey v.key site.id := by simpa using hd2
    refine ⟨u.id, hok, u, huR, rfl, hukey, ?_⟩
    have huL : u ∈ (couDB v A db).views := (List.mem_filter.mp huR).1
    rcases List.mem_append.mp huL with hu | hu
    · exact absurd hukey (hnocoll u hu site.id)
    · obtain ⟨s', hs', k', hk', hf'⟩ := couForks_shape v _ db.nextId u hu
      have hthm' : u.theme_id = none := by rw [hf', couFork_theme]; exact hthm
      have hweb' : u.website_id = some s'.id := by rw [hf']; rfl
      rw [hthm'] at hd1
      simp [websiteDomain, hweb'] at hd1
      rw [hweb', hd1]

/-- Concrete store for the C2 witness: one generic view with key "k",
websites 1 (current) and 2 (other). -/
def c2db : DB :=
  { views := [mkView 1 "k" none none none true 16], pages := [], menus := [],
    websites := [⟨1, []⟩, ⟨2, []⟩], modelData := [], modules := [],
    nextId := 10 }

/-- Context for the C2 witness: website 1, no bypass flag. -/
def c2ctx : Ctx := ⟨some 1, "", false⟩

/-- The generic view of the C2 witness store. -/
def c2v : View := mkView 1 "k" none none none true 16

/-- Witness for C2 at a concrete store: the COU hypotheses hold and the
protection conclusions follow. -/
theorem C2_cou_unlink_protection_witness :
    (c2db.WF ∧ c2ctx.no_cow = false ∧
     hasThemeSubstring c2ctx.install_module = false ∧
     c2ctx.website_id = some 1 ∧ c2v ∈ c2db.views ∧
     c2v.website_id = none ∧ c2v.key ≠ "" ∧ c2v.active = true ∧
     c2v.theme_id = none ∧
     (∀ u ∈ c2db.views, u.inherit_id ≠ some c2v.id) ∧
     (∀ p ∈ c2db.pages, p.view_id ≠ c2v.id) ∧
     (∀ u ∈ c2db.views, ∀ m : Nat, u.key ≠ renameKey c2v.key m)) ∧
    ((∀ site ∈ c2db.websites, site.id ≠ 1 →
       ∃ f ∈ (unlink (0+2) c2ctx [c2v.id] c2db).views,
         f.website_id = some site.id ∧ f.key = renameKey c2v.key site.id ∧
         c2db.nextId ≤ f.id) ∧
     (∀ u ∈ (unlink (0+2) c2ctx [c2v.id] c2db).views, u.key ≠ c2v.key) ∧
     get_view_id c2ctx (unlink (0+2) c2ctx [c2v.id] c2db) (.key c2v.key) =
       .error c2v.key ∧
     (∀ site ∈ c2db.websites, site.id ≠ 1 →
       ∃ r, get_view_id { c2ctx with website_id := some site.id }
           (unlink (0+2) c2ctx [c2v.id] c2db)
           (.key (renameKey c2v.key site.id)) = .ok r ∧
         ∃ u ∈ (unlink (0+2) c2ctx [c2v.id] c2db).views, u.id = r ∧
           u.key = renameKey c2v.key site.id ∧
           u.website_id = some site.id)) :=
  have hnocoll : ∀ u ∈ c2db.views, ∀ m : Nat, u.key ≠ renameKey c2v.key m :=
    fun u hu m => by
      have he : u = c2v := by simpa [c2db, c2v] using hu
      rw [he]
      exact renameKey_ne_of_le m (by decide)
  ⟨⟨⟨by decide, by decide, by decide, by decide, by decide, by decide⟩,
    rfl, by decide, rfl, by decide, rfl, by decide, rfl, rfl,
    by decide, by decide, hnocoll⟩,
   C2_cou_unlink_protection 0 c2ctx 1 c2db c2v
     ⟨by decide, by decide, by decide, by decide, by decide, by decide⟩
     rfl (by decide) rfl (by decide) rfl (by decide) rfl rfl
     (by decide) (by decide) hnocoll⟩

end Odoo
